import Mathlib

/-!
Verification of the anydep dependency-injection core (container.py, tasks.py,
concurrency.py) via a shallow embedding.

Modelling conventions:
* Python object identity of a `Dependant` is modelled by a `Nat` into a heap
  `Nat → Option DNode`; the declarative description graph may therefore share
  nodes and contain reference cycles, exactly as Python object graphs can.
* Provider callables are opaque Nat references; their runtime
  behaviour is an arbitrary pure semantics `sem : Nat → List (String × Nat) → Nat`
  supplied to the executor.  Nat invocations are recorded in an ordered log.
* The Python scope tag `False` is `Scope.unscoped`, `None` is `Scope.inherit`,
  and a concrete hashable scope id is `Scope.named`.
* Dictionaries whose iteration order matters (the per-round task cache) are
  association lists with insert-preserves-position semantics, matching Python
  dict insertion order; dictionaries used only through lookup are functions.
* The cooperative single-threaded scheduler is modelled by sequential execution;
  the per-task `anyio.Lock` makes `Task.result` bodies atomic, so the memoised
  state machine below is the lock-serialised behaviour of the source.
* `AsyncExitStack` (Python stdlib) is modelled by its documented contract:
  registered callbacks run in reverse registration order on exit, on every path.
* Recursion over the possibly-cyclic node graph uses explicit fuel; running out
  of fuel is the distinguished error `Err.fuel` (never raised by the Python
  source, which instead diverges only on infinite object graphs, impossible
  for finite heaps with the seen-set check).
-/

namespace Anydep

/-- Scope tag of a Dependant: Python `False` / `None` / a concrete scope id. -/
inductive Scope where
  | unscoped
  | inherit
  | named (name : String)
deriving DecidableEq

/-- Dependency description node (a `Dependant`): provider reference, scope tag,
named sub-dependency references.  Modelled from the spec: the `Dependant` class
itself lives in the absent `models.py`; the spec (section 3) describes it as a
provider reference, a mapping from parameter name to nested description, and a
scope tag, with identity semantics — hence nodes are heap references. -/
structure DNode where
  call : Nat
  scope : Scope
  deps : List (String × Nat)
deriving DecidableEq

/-- Error kinds: the repository's three exception types, plus the distinct
 Python runtime errors an unguarded operation can raise (IndexError on
 `scopes[-1]` with an empty stack, KeyError on a missing dict key,
 AttributeError on a dangling object reference), a guard-acquisition
 failure, and fuel exhaustion of the embedding. -/
inductive Err where
  | circular
  | unknownScope
  | duplicateScope
  | indexError
  | keyError
  | attrError
  | guardFailure
  | fuel
deriving DecidableEq

/-- ContainerState (container.py lines 37-50): binding table, per-scope result
caches, per-scope cleanup stacks (`AsyncExitStack`s, modelled as the ordered
list of registered teardown action ids), the active scope list, plus the heap
of `Dependant` objects and an allocation counter (Python's object heap). -/
structure ContainerState where
  binds : Nat → Option Nat
  cached_values : String → Option (Nat → Option Nat)
  stacks_ : String → Option (List Nat)
  scopes : List String
  heap : Nat → Option DNode
  nextNode : Nat

/-- The call slot of a built Task: either the wrap_call-adapted provider bound
to a scope's cleanup stack, or the trivial closure returning a cached value
(`_task_from_cached_value`). -/
inductive TaskCall where
  | adapted (p : Nat) (boundScope : String)
  | retrieve (v : Nat)
deriving DecidableEq

/-- A Task node (tasks.py lines 16-29): the dependant's provider reference, the
task scope, the adapted call, and named sub-task references into the task store. -/
structure Task where
  dependantCall : Nat
  scope : Scope
  call : TaskCall
  dependencies : List (String × Nat)
deriving DecidableEq

/-- Per-`_build_task`-round mutable state: the seen set (cycle guard), the
call cache (provider to canonical dependant), the task cache (dependant to
built task, in dict insertion order), and the store of allocated Task objects. -/
structure BuildState where
  seen : List Nat
  call_cache : Nat → Option Nat
  task_cache : List (Nat × Nat)
  store : Nat → Option Task
  nextTask : Nat

/-- Association-list lookup (Python dict read). -/
def alLookup (k : Nat) : List (Nat × Nat) → Option Nat
  | [] => none
  | (k2, v) :: rest => if k2 = k then some v else alLookup k rest

/-- Association-list write with Python dict semantics: overwriting an existing
key keeps its original position, a fresh key is appended. -/
def alInsert (k v : Nat) : List (Nat × Nat) → List (Nat × Nat)
  | [] => [(k, v)]
  | (k2, v2) :: rest => if k2 = k then (k, v) :: rest else (k2, v2) :: alInsert k v rest

/-- Container._resolve_scope (container.py lines 121-132): `False` maps to
itself, `None` maps to the innermost active scope (UnknownScopeError when no
scope is active), anything else maps to itself. -/
def resolve_scope (s : ContainerState) : Scope → Except Err Scope
  | .unscoped => .ok .unscoped
  | .inherit =>
      match s.scopes.getLast? with
      | none => .error .unknownScope
      | some n => .ok (.named n)
  | .named n => .ok (.named n)

/-- Container._check_scope (container.py lines 142-148): skip for `False`,
otherwise the scope must have an active stack. -/
def check_scope (s : ContainerState) : Scope → Except Err Unit
  | .unscoped => .ok ()
  | .inherit => .error .unknownScope
  | .named n => if (s.stacks_ n).isSome then .ok () else .error .unknownScope

/-- The cached-value search loop of _build_task (container.py lines 196-199):
walk the active scopes innermost-first, reading each scope's result cache. -/
def cacheSearchGo (s : ContainerState) (p : Nat) : List String → Except Err (Option Nat)
  | [] => .ok none
  | sc :: rest =>
      match s.cached_values sc with
      | none => .error .keyError
      | some bucket =>
          match bucket p with
          | some v => .ok (some v)
          | none => cacheSearchGo s p rest

def cacheSearch (s : ContainerState) (p : Nat) : Except Err (Option Nat) :=
  cacheSearchGo s p s.scopes.reverse

/-- The stack choice of container.py line 182:
`stacks_[scope if scope is not False else scopes[-1]]` — for `False` the
innermost active scope is indexed, raising IndexError when none is active. -/
def boundScopeOf (s : ContainerState) : Scope → Except Err String
  | .named n => .ok n
  | .unscoped =>
      match s.scopes.getLast? with
      | none => .error .indexError
      | some n => .ok n
  | .inherit => .error .keyError

/-- Container._task_from_cached_value (container.py lines 134-140): a Task with
no dependencies, scope `False`, whose call just returns the cached value. -/
def task_from_cached_value (p : Nat) (v : Nat) : Task :=
  { dependantCall := p, scope := .unscoped, call := .retrieve v, dependencies := [] }

/-- Binding substitution of container.py lines 166-167: when the dependant's
provider has an entry in the binding table, the bound description replaces it. -/
def substitute_bind (s : ContainerState) (depId : Nat) (dn : DNode) : Except Err (Nat × DNode) :=
  match s.binds dn.call with
  | none => .ok (depId, dn)
  | some bId =>
      match s.heap bId with
      | none => .error .attrError
      | some bn => .ok (bId, bn)

/-- Call-cache deduplication of container.py lines 169-173: for a non-Unscoped
pre-substitution scope, reuse the canonical dependant already chosen for this
provider this round, or record this dependant as the canonical one. -/
def dedupe_call (s : ContainerState) (scope0 : Scope) (depId : Nat) (dn : DNode) (bs : BuildState) :
    Except Err (Nat × DNode × BuildState) :=
  if scope0 = Scope.unscoped then .ok (depId, dn, bs)
  else
    match bs.call_cache dn.call with
    | some cId =>
        match s.heap cId with
        | none => .error .attrError
        | some cn => .ok (cId, cn, bs)
    | none =>
        .ok (depId, dn,
          { bs with call_cache := fun p => if p = dn.call then some depId else bs.call_cache p })

/-- Task allocation: a fresh Task object in the store. -/
def allocTask (t : Task) (bs : BuildState) : Nat × BuildState :=
  (bs.nextTask,
    { bs with
      store := fun i => if i = bs.nextTask then some t else bs.store i,
      nextTask := bs.nextTask + 1 })

/-- The sub-dependency loop of _build_task (container.py lines 185-192):
build each named sub-dependant, record it in the task cache keyed by the
original sub-dependant, and keep only the LAST iteration's allow_cache flag
(the loop variable is overwritten each iteration; it starts as True). -/
def build_subtasks
    (bt : Nat → BuildState → Except Err (Bool × Nat × BuildState)) :
    List (String × Nat) → Bool → BuildState →
    Except Err (Bool × List (String × Nat) × BuildState)
  | [], flag, bs => .ok (flag, [], bs)
  | (nm, subId) :: rest, _, bs =>
      match bt subId bs with
      | .error e => .error e
      | .ok (flag, tid, bs1) =>
          let bs2 := { bs1 with task_cache := alInsert subId tid bs1.task_cache }
          match build_subtasks bt rest flag bs2 with
          | .error e => .error e
          | .ok (flagOut, tids, bs3) => .ok (flagOut, (nm, tid) :: tids, bs3)

/-- Container._build_task (container.py lines 150-206).  Per node: seen-set
cycle check (the set is never pruned), scope resolution of the original tag
(kept as task_scope), binding substitution, call-cache deduplication for
non-Unscoped scopes, task-cache reuse, re-resolution and checking of the
substituted tag, wrap_call bound to the chosen scope's stack (innermost for
Unscoped), recursive sub-dependency building, cached-value lookup gated on the
last sub-dependency's flag, and finally Task construction. -/
def build_task (s : ContainerState) : Nat → Nat → BuildState → Except Err (Bool × Nat × BuildState)
  | 0, _, _ => .error .fuel
  | fuel+1, depId0, bs0 =>
    if depId0 ∈ bs0.seen then .error .circular
    else
      let bs1 : BuildState := { bs0 with seen := depId0 :: bs0.seen }
      match s.heap depId0 with
      | none => .error .attrError
      | some dn0 =>
        match resolve_scope s dn0.scope with
        | .error e => .error e
        | .ok scope0 =>
          match substitute_bind s depId0 dn0 with
          | .error e => .error e
          | .ok (depId1, dn1) =>
            match dedupe_call s scope0 depId1 dn1 bs1 with
            | .error e => .error e
            | .ok (depId2, dn2, bs2) =>
              match alLookup depId2 bs2.task_cache with
              | some tid => .ok (true, tid, bs2)
              | none =>
                match resolve_scope s dn2.scope with
                | .error e => .error e
                | .ok scope2 =>
                  match check_scope s scope2 with
                  | .error e => .error e
                  | .ok _ =>
                    match boundScopeOf s scope2 with
                    | .error e => .error e
                    | .ok bound =>
                      if (s.stacks_ bound).isSome then
                        match build_subtasks (build_task s fuel) dn2.deps true bs2 with
                        | .error e => .error e
                        | .ok (allow_cache, subtasks, bs3) =>
                          match (if allow_cache = true ∧ scope2 ≠ Scope.unscoped
                                 then cacheSearch s dn2.call else .ok none) with
                          | .error e => .error e
                          | .ok (some v) =>
                              let a := allocTask (task_from_cached_value dn2.call v) bs3
                              let bs5 := { a.2 with task_cache := alInsert depId2 a.1 a.2.task_cache }
                              .ok (true, a.1, bs5)
                          | .ok none =>
                              let a := allocTask
                                { dependantCall := dn2.call, scope := scope0,
                                  call := .adapted dn2.call bound, dependencies := subtasks } bs3
                              let bs5 := { a.2 with task_cache := alInsert depId2 a.1 a.2.task_cache }
                              .ok (false, a.1, bs5)
                      else .error .keyError

/-- Run-time state of one execute round: the per-Task single-assignment result
slots, and the ordered log of provider invocations. -/
structure RunState where
  memo : Nat → Option Nat
  log : List Nat

/-- The sub-task gathering of Task.result (tasks.py lines 34-39): every
sub-task's result is awaited and the values are assembled by parameter name in
dependency order.  (The task group start is a concurrency optimisation; with
per-task memoisation the lock-serialised value flow is this sequential one.) -/
def run_subtasks (rt : Nat → RunState → Except Err (Nat × RunState)) :
    List (String × Nat) → RunState → Except Err (List (String × Nat) × RunState)
  | [], rs => .ok ([], rs)
  | (nm, tid) :: rest, rs =>
      match rt tid rs with
      | .error e => .error e
      | .ok (v, rs1) =>
          match run_subtasks rt rest rs1 with
          | .error e => .error e
          | .ok (vs, rs2) => .ok ((nm, v) :: vs, rs2)

/-- Task.result (tasks.py lines 31-41): under the per-task lock, return the
memoised value if set; otherwise run all sub-tasks, invoke the adapted call
with the assembled values (recording the provider invocation), store the
value in the single-assignment slot and return it. -/
def task_result (sem : Nat → List (String × Nat) → Nat) (store : Nat → Option Task) :
    Nat → Nat → RunState → Except Err (Nat × RunState)
  | 0, _, _ => .error .fuel
  | fuel+1, tid, rs =>
      match rs.memo tid with
      | some v => .ok (v, rs)
      | none =>
          match store tid with
          | none => .error .attrError
          | some t =>
              match run_subtasks (task_result sem store fuel) t.dependencies rs with
              | .error e => .error e
              | .ok (values, rs1) =>
                  match t.call with
                  | .retrieve v =>
                      .ok (v, { rs1 with memo := fun i => if i = tid then some v else rs1.memo i })
                  | .adapted p _ =>
                      let v := sem p values
                      .ok (v, { rs1 with
                        memo := fun i => if i = tid then some v else rs1.memo i,
                        log := rs1.log ++ [p] })

/-- Repeated sequential calls of Task.result by successive callers. -/
def task_result_many (sem : Nat → List (String × Nat) → Nat)
    (store : Nat → Option Task) (fuel : Nat) (tid : Nat) :
    Nat → RunState → Except Err (List Nat × RunState)
  | 0, rs => .ok ([], rs)
  | n+1, rs =>
      match task_result sem store fuel tid rs with
      | .error e => .error e
      | .ok (v, rs1) =>
          match task_result_many sem store fuel tid n rs1 with
          | .error e => .error e
          | .ok (vs, rs2) => .ok (v :: vs, rs2)

/-- A result-cache write `self.state.cached_values[scope][call] = value`
(container.py lines 214 and 219); KeyError when the scope has no bucket. -/
def cache_write (s : ContainerState) (sc : String) (p : Nat) (v : Nat) : Except Err ContainerState :=
  match s.cached_values sc with
  | none => .error .keyError
  | some bucket =>
      .ok { s with cached_values := fun x =>
              if x = sc then some (fun q => if q = p then some v else bucket q) else s.cached_values x }

/-- The cache-warming loop of Container.execute (container.py lines 215-219):
for every task built this round, in task-cache insertion order, resolve its
scope and — unless Unscoped — await its (memoised) result and write it into
that scope's result cache keyed by the task's provider. -/
def write_loop (sem : Nat → List (String × Nat) → Nat) (store : Nat → Option Task) (fuel : Nat) :
    List (Nat × Nat) → ContainerState → RunState → Except Err (ContainerState × RunState)
  | [], s, rs => .ok (s, rs)
  | (_, tid) :: rest, s, rs =>
      match store tid with
      | none => .error .attrError
      | some t =>
          match resolve_scope s t.scope with
          | .error e => .error e
          | .ok .unscoped => write_loop sem store fuel rest s rs
          | .ok (.named n) =>
              match task_result sem store fuel tid rs with
              | .error e => .error e
              | .ok (v, rs1) =>
                  match cache_write s n t.dependantCall v with
                  | .error e => .error e
                  | .ok s1 => write_loop sem store fuel rest s1 rs1
          | .ok .inherit => .error .keyError

def emptyBuildState : BuildState :=
  { seen := [], call_cache := fun _ => none, task_cache := [], store := fun _ => none, nextTask := 0 }

def emptyRunState : RunState := { memo := fun _ => none, log := [] }

/-- Container.execute (container.py lines 208-220): build the task graph from
the description, await the root task's result, write it into its scope's cache
when the scope caches values, then warm the cache with every built task's
result.  Returns the root value, the updated container state, and the ordered
provider-invocation log of this round. -/
def execute (sem : Nat → List (String × Nat) → Nat) (fuel : Nat)
    (s : ContainerState) (depId : Nat) :
    Except Err (Nat × ContainerState × List Nat) :=
  match build_task s fuel depId emptyBuildState with
  | .error e => .error e
  | .ok (_, rootTid, bs) =>
      match task_result sem bs.store fuel rootTid emptyRunState with
      | .error e => .error e
      | .ok (result, rs) =>
          match bs.store rootTid with
          | none => .error .attrError
          | some rootTask =>
              match resolve_scope s rootTask.scope with
              | .error e => .error e
              | .ok sc =>
                  match (match sc with
                         | Scope.unscoped => Except.ok s
                         | Scope.named n => cache_write s n rootTask.dependantCall result
                         | Scope.inherit => Except.error Err.keyError) with
                  | .error e => .error e
                  | .ok s1 =>
                      match write_loop sem bs.store fuel bs.task_cache s1 rs with
                      | .error e => .error e
                      | .ok (s2, rs2) => .ok (result, s2, rs2.log)

/-- Two sequential execute calls of the same description, returning the two
provider-invocation logs. -/
def exec2logs (sem : Nat → List (String × Nat) → Nat) (fuel : Nat)
    (s : ContainerState) (depId : Nat) :
    Except Err (List Nat × List Nat) :=
  match execute sem fuel s depId with
  | .error e => .error e
  | .ok (_, s1, log1) =>
      match execute sem fuel s1 depId with
      | .error e => .error e
      | .ok (_, _, log2) => .ok (log1, log2)

/-- Container.bind (container.py lines 99-103): allocate `Dependant(source)`
(the Dependant constructor lives in the absent models.py — modelled from the
spec as a description with provider `source`, no sub-dependencies, and the
constructor's default scope tag, taken as Inherit), install it as the override
for `target`, then purge `target` from every active scope's result cache. -/
def bindDefaultScope : Scope := .inherit

def Container.bind (s : ContainerState) (target source : Nat) : ContainerState :=
  { s with
    heap := fun i => if i = s.nextNode
      then some { call := source, scope := bindDefaultScope, deps := [] } else s.heap i,
    nextNode := s.nextNode + 1,
    binds := fun p => if p = target then some s.nextNode else s.binds p,
    cached_values := fun sc => (s.cached_values sc).map
      (fun bucket q => if q = target then none else bucket q) }

/-- The container state immediately after entering a scope (container.py lines
56-61): scope pushed, a fresh empty cleanup stack and result-cache bucket
allocated; the binding table is replaced by a copy of itself (same content). -/
def enter_scope_state (scope : String) (s : ContainerState) : ContainerState :=
  { s with
    scopes := s.scopes ++ [scope],
    stacks_ := fun x => if x = scope then some [] else s.stacks_ x,
    cached_values := fun x => if x = scope then some (fun _ => none) else s.cached_values x }

/-- ContainerState.enter_scope (container.py lines 52-68) run around a body:
DuplicateScopeError if the scope already has a stack; otherwise enter, run the
body (whatever its outcome), and in the finally block pop the stack entry,
restore the pre-entry binding table object, discard the result-cache bucket and
pop the scope; finally the AsyncExitStack unwinds, running the registered
teardown actions in reverse registration order on success and failure alike.
Returns the post-exit state, the body's outcome, and the teardown actions in
the order they ran. -/
def enter_scope {A : Type} (scope : String)
    (body : ContainerState → ContainerState × Except Err A) (s : ContainerState) :
    Except Err ((ContainerState × Except Err A) × List Nat) :=
  if (s.stacks_ scope).isSome then .error .duplicateScope
  else
    let p := body (enter_scope_state scope s)
    let registered := (p.1.stacks_ scope).getD []
    let s3 : ContainerState :=
      { p.1 with
        stacks_ := fun x => if x = scope then none else p.1.stacks_ x,
        binds := s.binds,
        cached_values := fun x => if x = scope then none else p.1.cached_values x,
        scopes := p.1.scopes.dropLast }
    .ok ((s3, p.2), registered.reverse)

/-- An abstract resource guard: whether its acquisition succeeds, the teardown
action it registers, and the value it yields. -/
structure GuardSpec where
  enterOk : Bool
  teardownId : Nat
  value : Nat

/-- bind_async_context_manager (concurrency.py lines 97-103) composed with
AsyncExitStack.enter_async_context: run the guard's acquisition; on success
register its teardown at the end of the bound scope's cleanup stack and yield
the value; on failure propagate the error with nothing registered. -/
def acquire_guard (sc : String) (g : GuardSpec) (s : ContainerState) :
    ContainerState × Except Err Nat :=
  if g.enterOk then
    match s.stacks_ sc with
    | none => (s, .error .keyError)
    | some regs =>
        ({ s with stacks_ := fun x => if x = sc then some (regs ++ [g.teardownId]) else s.stacks_ x },
         .ok g.value)
  else (s, .error .guardFailure)

/-- Sequential acquisition of a list of guards in one scope, stopping at the
first failed acquisition (the failure propagates out of the scope body). -/
def acquire_all (sc : String) : List GuardSpec → ContainerState → ContainerState × Except Err (List Nat)
  | [], s => (s, .ok [])
  | g :: gs, s =>
      match acquire_guard sc g s with
      | (s1, .error e) => (s1, .error e)
      | (s1, .ok v) =>
          match acquire_all sc gs s1 with
          | (s2, .error e) => (s2, .error e)
          | (s2, .ok vs) => (s2, .ok (v :: vs))

/-! ### Helper lemmas -/

theorem alLookup_insert_self (k v : Nat) (l : List (Nat × Nat)) :
    alLookup k (alInsert k v l) = some v := by
  induction l with
  | nil => simp [alInsert, alLookup]
  | cons hd tl ih =>
      obtain ⟨k2, v2⟩ := hd
      by_cases hk : k2 = k
      · simp [alInsert, hk, alLookup]
      · simp [alInsert, hk, alLookup, ih]

theorem alLookup_insert_ne (k k2 v : Nat) (l : List (Nat × Nat)) (h : k2 ≠ k) :
    alLookup k2 (alInsert k v l) = alLookup k2 l := by
  have hne : ¬ k = k2 := fun hh => h hh.symm
  induction l with
  | nil =>
      simp only [alInsert, alLookup]
      rw [if_neg hne]
  | cons hd tl ih =>
      obtain ⟨k3, v3⟩ := hd
      by_cases hk : k3 = k
      · subst hk
        rw [alInsert, if_pos rfl, alLookup, alLookup, if_neg hne, if_neg hne]
      · rw [alInsert, if_neg hk, alLookup, alLookup]
        by_cases h3 : k3 = k2
        · rw [if_pos h3, if_pos h3]
        · rw [if_neg h3, if_neg h3, ih]

theorem alInsert_mem (k v : Nat) (l : List (Nat × Nat)) (pr : Nat × Nat)
    (h : pr ∈ alInsert k v l) : pr = (k, v) ∨ pr ∈ l := by
  induction l with
  | nil => simpa [alInsert] using h
  | cons hd tl ih =>
      obtain ⟨k2, v2⟩ := hd
      by_cases hk : k2 = k
      · rw [alInsert, if_pos hk] at h
        cases List.mem_cons.mp h with
        | inl hh => exact Or.inl hh
        | inr hh => exact Or.inr (List.mem_cons_of_mem _ hh)
      · rw [alInsert, if_neg hk] at h
        cases List.mem_cons.mp h with
        | inl hh => exact Or.inr (hh ▸ List.mem_cons_self _ _)
        | inr hh =>
            cases ih hh with
            | inl h2 => exact Or.inl h2
            | inr h2 => exact Or.inr (List.mem_cons_of_mem _ h2)

theorem alLookup_mem (k v : Nat) (l : List (Nat × Nat)) (h : alLookup k l = some v) :
    (k, v) ∈ l := by
  induction l with
  | nil => simp [alLookup] at h
  | cons hd tl ih =>
      obtain ⟨k2, v2⟩ := hd
      by_cases hk : k2 = k
      · rw [alLookup, if_pos hk] at h
        cases h
        exact hk ▸ List.mem_cons_self _ _
      · rw [alLookup, if_neg hk] at h
        exact List.mem_cons_of_mem _ (ih h)

theorem alLookup_insert_fresh_mono (k v k2 v2 : Nat) (l : List (Nat × Nat))
    (hfresh : alLookup k l = none) (h : alLookup k2 l = some v2) :
    alLookup k2 (alInsert k v l) = some v2 := by
  have hk : k2 ≠ k := by
    intro hh
    rw [hh, hfresh] at h
    cases h
  rw [alLookup_insert_ne k k2 v l hk]
  exact h

/-- Fuel monotonicity of Task.result: a successful run is reproduced verbatim
by any larger fuel. -/
theorem task_result_mono (sem : Nat → List (String × Nat) → Nat)
    (store : Nat → Option Task) :
    ∀ fuel fuel2 tid rs r, fuel ≤ fuel2 →
      task_result sem store fuel tid rs = .ok r →
      task_result sem store fuel2 tid rs = .ok r := by
  intro fuel
  induction fuel with
  | zero => intro fuel2 tid rs r _ h; simp [task_result] at h
  | succ fuel ih =>
      intro fuel2 tid rs r hle h
      obtain ⟨fuel2, rfl⟩ : ∃ f, fuel2 = f + 1 := ⟨fuel2 - 1, by omega⟩
      have hle2 : fuel ≤ fuel2 := by omega
      rw [task_result] at h ⊢
      cases hm : rs.memo tid with
      | some w => rw [hm] at h; exact h
      | none =>
          rw [hm] at h
          cases hs : store tid with
          | none => rw [hs] at h; exact h
          | some t =>
              rw [hs] at h
              have hsubs : ∀ l rs2 r2, run_subtasks (task_result sem store fuel) l rs2 = .ok r2 →
                  run_subtasks (task_result sem store fuel2) l rs2 = .ok r2 := by
                intro l
                induction l with
                | nil => intro rs2 r2 hh; exact hh
                | cons pr rest ihl =>
                    intro rs2 r2 hh
                    obtain ⟨nm, tid2⟩ := pr
                    rw [run_subtasks] at hh ⊢
                    cases hr : task_result sem store fuel tid2 rs2 with
                    | error e => simp [hr] at hh
                    | ok p =>
                        obtain ⟨v2, rs3⟩ := p
                        simp only [hr] at hh
                        have hstep := ih fuel2 tid2 rs2 (v2, rs3) hle2 hr
                        cases hrest : run_subtasks (task_result sem store fuel) rest rs3 with
                        | error e => simp [hrest] at hh
                        | ok p2 =>
                            obtain ⟨vs, rs4⟩ := p2
                            simp only [hrest] at hh
                            have hstep2 := ihl rs3 (vs, rs4) hrest
                            simp only [hstep, hstep2]
                            exact hh
              cases hr : run_subtasks (task_result sem store fuel) t.dependencies rs with
              | error e => simp [hr] at h
              | ok p =>
                  obtain ⟨values, rs2⟩ := p
                  simp only [hr] at h
                  have hstep := hsubs _ _ _ hr
                  simp only [hstep]
                  exact h

/-- After a successful `Task.result`, the task's single-assignment slot holds
the returned value. -/
theorem task_result_memo (sem : Nat → List (String × Nat) → Nat)
    (store : Nat → Option Task) (fuel : Nat) (tid : Nat) (rs : RunState)
    (v : Nat) (rs1 : RunState)
    (h : task_result sem store fuel tid rs = .ok (v, rs1)) : rs1.memo tid = some v := by
  match fuel with
  | 0 => simp [task_result] at h
  | fuel+1 =>
    rw [task_result] at h
    cases hm : rs.memo tid with
    | some w =>
        simp only [hm] at h
        cases h
        exact hm
    | none =>
        simp only [hm] at h
        cases hs : store tid with
        | none => simp [hs] at h
        | some t =>
            simp only [hs] at h
            cases hr : run_subtasks (task_result sem store fuel) t.dependencies rs with
            | error e => simp [hr] at h
            | ok p =>
                obtain ⟨values, rs2⟩ := p
                simp only [hr] at h
                cases hc : t.call with
                | retrieve w => simp only [hc] at h; cases h; simp
                | adapted q b => simp only [hc] at h; cases h; simp

/-- Optional evaluation of a dependency list under a task valuation. -/
def canonVals (f : Nat → Option Nat) : List (String × Nat) → Option (List (String × Nat))
  | [] => some []
  | pr :: rest =>
      match f pr.2, canonVals f rest with
      | some v, some vs => some ((pr.1, v) :: vs)
      | _, _ => none

/-- Fuel-indexed canonical task valuation: the value Task.result computes for a
task, defined denotationally over the task store. -/
def canonValF (sem : Nat → List (String × Nat) → Nat) (store : Nat → Option Task) :
    Nat → Nat → Option Nat
  | 0, _ => none
  | fuel+1, tid =>
      match store tid with
      | none => none
      | some t =>
          match canonVals (canonValF sem store fuel) t.dependencies with
          | none => none
          | some vals =>
              match t.call with
              | .retrieve v => some v
              | .adapted p _ => some (sem p vals)

theorem canonValF_mono (sem : Nat → List (String × Nat) → Nat)
    (store : Nat → Option Task) :
    ∀ fuel tid v, canonValF sem store fuel tid = some v →
      canonValF sem store (fuel+1) tid = some v := by
  intro fuel
  induction fuel with
  | zero => intro tid v h; simp [canonValF] at h
  | succ fuel ih =>
      intro tid v h
      rw [canonValF] at h ⊢
      cases hs : store tid with
      | none => simp [hs] at h
      | some t =>
          simp only [hs] at h ⊢
          have hlist : ∀ l vs, canonVals (canonValF sem store fuel) l = some vs →
              canonVals (canonValF sem store (fuel+1)) l = some vs := by
            intro l
            induction l with
            | nil => intro vs hh; exact hh
            | cons pr rest ihl =>
                intro vs hh
                rw [canonVals] at hh ⊢
                cases hv : canonValF sem store fuel pr.2 with
                | none => simp [hv] at hh
                | some w =>
                    simp only [hv] at hh
                    cases hvs : canonVals (canonValF sem store fuel) rest with
                    | none => simp [hvs] at hh
                    | some ws =>
                        simp only [hvs] at hh
                        simp only [ih pr.2 w hv, ihl ws hvs]
                        exact hh
          cases hc : canonVals (canonValF sem store fuel) t.dependencies with
          | none => simp [hc] at h
          | some vals =>
              simp only [hc] at h
              simp only [hlist _ _ hc]
              exact h

theorem canonValF_le (sem : Nat → List (String × Nat) → Nat)
    (store : Nat → Option Task) (fuel fuel2 : Nat) (tid : Nat) (v : Nat)
    (hle : fuel ≤ fuel2) (h : canonValF sem store fuel tid = some v) :
    canonValF sem store fuel2 tid = some v := by
  induction fuel2 with
  | zero =>
      have : fuel = 0 := by omega
      subst this
      exact h
  | succ fuel2 ih =>
      by_cases heq : fuel = fuel2 + 1
      · subst heq; exact h
      · exact canonValF_mono sem store fuel2 tid v (ih (by omega))

theorem canonValF_unique (sem : Nat → List (String × Nat) → Nat)
    (store : Nat → Option Task) (f1 f2 : Nat) (tid : Nat) (v1 v2 : Nat)
    (h1 : canonValF sem store f1 tid = some v1) (h2 : canonValF sem store f2 tid = some v2) :
    v1 = v2 := by
  have h1b := canonValF_le sem store f1 (f1 + f2) tid v1 (by omega) h1
  have h2b := canonValF_le sem store f2 (f1 + f2) tid v2 (by omega) h2
  rw [h1b] at h2b
  cases h2b
  rfl

/-- A run state is memo-consistent when every stored slot holds the canonical
value of its task. -/
def MemoOK (sem : Nat → List (String × Nat) → Nat) (store : Nat → Option Task)
    (rs : RunState) : Prop :=
  ∀ i w, rs.memo i = some w → ∃ fc, canonValF sem store fc i = some w

theorem memoOK_empty (sem : Nat → List (String × Nat) → Nat)
    (store : Nat → Option Task) : MemoOK sem store emptyRunState := by
  intro i w h
  simp [emptyRunState] at h

/-- Memo slots are single-assignment: a successful Task.result never clears or
changes a slot that was already set. -/
theorem task_result_memo_mono (sem : Nat → List (String × Nat) → Nat)
    (store : Nat → Option Task) :
    ∀ fuel tid rs v rs2, task_result sem store fuel tid rs = .ok (v, rs2) →
      ∀ i w, rs.memo i = some w → rs2.memo i = some w := by
  intro fuel
  induction fuel with
  | zero => intro tid rs v rs2 h; simp [task_result] at h
  | succ fuel ih =>
      intro tid rs v rs2 h i w hw
      rw [task_result] at h
      cases hm : rs.memo tid with
      | some u =>
          rw [hm] at h
          cases h
          exact hw
      | none =>
          rw [hm] at h
          cases hs : store tid with
          | none => rw [hs] at h; cases h
          | some t =>
              rw [hs] at h
              have hlist : ∀ l rs3 vs rs4, run_subtasks (task_result sem store fuel) l rs3 = .ok (vs, rs4) →
                  ∀ j u, rs3.memo j = some u → rs4.memo j = some u := by
                intro l
                induction l with
                | nil =>
                    intro rs3 vs rs4 hh j u hu
                    cases hh
                    exact hu
                | cons pr rest ihl =>
                    intro rs3 vs rs4 hh j u hu
                    rw [run_subtasks] at hh
                    cases hr : task_result sem store fuel pr.2 rs3 with
                    | error e => simp [hr] at hh
                    | ok q =>
                        obtain ⟨v2, rs5⟩ := q
                        simp only [hr] at hh
                        cases hrest : run_subtasks (task_result sem store fuel) rest rs5 with
                        | error e => simp [hrest] at hh
                        | ok q2 =>
                            obtain ⟨vs2, rs6⟩ := q2
                            simp only [hrest] at hh
                            cases hh
                            exact ihl rs5 vs2 rs4 hrest j u (ih pr.2 rs3 v2 rs5 hr j u hu)
              cases hr : run_subtasks (task_result sem store fuel) t.dependencies rs with
              | error e => simp [hr] at h
              | ok q =>
                  obtain ⟨values, rs1⟩ := q
                  simp only [hr] at h
                  have hmid := hlist _ _ _ _ hr i w hw
                  cases hc : t.call with
                  | retrieve u =>
                      rw [hc] at h
                      cases h
                      by_cases hit : i = tid
                      · subst hit
                        rw [hm] at hw
                        cases hw
                      · simp [hit, hmid]
                  | adapted p bnd =>
                      rw [hc] at h
                      cases h
                      by_cases hit : i = tid
                      · subst hit
                        rw [hm] at hw
                        cases hw
                      · simp [hit, hmid]

/-- Task.result succeeds on any store whose dependency references point to
strictly smaller, present task ids (as the builder allocates bottom-up), given
fuel exceeding the task id. -/
theorem task_result_ok (sem : Nat → List (String × Nat) → Nat)
    (store : Nat → Option Task)
    (hdeps : ∀ i t, store i = some t → ∀ pr ∈ t.dependencies, pr.2 < i ∧ (store pr.2).isSome = true) :
    ∀ fuel tid rs, tid < fuel → (store tid).isSome = true →
      ∃ v rs2, task_result sem store fuel tid rs = .ok (v, rs2) := by
  intro fuel
  induction fuel with
  | zero => intro tid rs hlt; exact absurd hlt (Nat.not_lt_zero tid)
  | succ fuel ih =>
      intro tid rs hlt hsome
      rw [task_result]
      cases hm : rs.memo tid with
      | some w => exact ⟨w, rs, rfl⟩
      | none =>
          obtain ⟨t, hs⟩ := Option.isSome_iff_exists.mp hsome
          rw [hs]
          have hsubs : ∀ l rs2, (∀ pr ∈ l, pr.2 < tid ∧ (store pr.2).isSome = true) →
              ∃ vs rs3, run_subtasks (task_result sem store fuel) l rs2 = .ok (vs, rs3) := by
            intro l
            induction l with
            | nil => intro rs2 _; exact ⟨[], rs2, rfl⟩
            | cons pr rest ihl =>
                intro rs2 hall
                obtain ⟨hlt2, hsome2⟩ := hall _ (List.mem_cons_self _ _)
                have hltf : pr.2 < fuel := Nat.lt_of_lt_of_le hlt2 (Nat.lt_succ_iff.mp hlt)
                obtain ⟨v2, rs3, hr⟩ := ih pr.2 rs2 hltf hsome2
                obtain ⟨vs, rs4, hrest⟩ := ihl rs3 (fun x hx => hall x (List.mem_cons_of_mem _ hx))
                refine ⟨(pr.1, v2) :: vs, rs4, ?_⟩
                rw [run_subtasks]
                simp only [hr, hrest]
          obtain ⟨vs, rs3, hr⟩ := hsubs t.dependencies rs (fun pr hpr => hdeps tid t hs pr hpr)
          simp only [hr]
          cases t.call with
          | retrieve w => exact ⟨w, _, rfl⟩
          | adapted p b => exact ⟨sem p vs, _, rfl⟩

/-- Determinism of Task.result relative to the canonical valuation: a
successful run from a memo-consistent state computes the canonical value and
leaves the state memo-consistent. -/
theorem task_result_canon (sem : Nat → List (String × Nat) → Nat)
    (store : Nat → Option Task) :
    ∀ fuel tid rs v rs2, task_result sem store fuel tid rs = .ok (v, rs2) →
      MemoOK sem store rs →
      (∃ fc, canonValF sem store fc tid = some v) ∧ MemoOK sem store rs2 := by
  intro fuel
  induction fuel with
  | zero => intro tid rs v rs2 h; simp [task_result] at h
  | succ fuel ih =>
      intro tid rs v rs2 h hok
      rw [task_result] at h
      cases hm : rs.memo tid with
      | some w =>
          rw [hm] at h
          cases h
          exact ⟨hok _ _ hm, hok⟩
      | none =>
          rw [hm] at h
          cases hs : store tid with
          | none => rw [hs] at h; cases h
          | some t =>
              rw [hs] at h
              have hlist : ∀ l rs3 vs rs4, run_subtasks (task_result sem store fuel) l rs3 = .ok (vs, rs4) →
                  MemoOK sem store rs3 →
                  (∃ fc, canonVals (canonValF sem store fc) l = some vs) ∧ MemoOK sem store rs4 := by
                intro l
                induction l with
                | nil =>
                    intro rs3 vs rs4 hh hok3
                    cases hh
                    exact ⟨⟨0, rfl⟩, hok3⟩
                | cons pr rest ihl =>
                    intro rs3 vs rs4 hh hok3
                    rw [run_subtasks] at hh
                    cases hr : task_result sem store fuel pr.2 rs3 with
                    | error e => simp [hr] at hh
                    | ok q =>
                        obtain ⟨v2, rs5⟩ := q
                        simp only [hr] at hh
                        obtain ⟨⟨fc1, hc1⟩, hok5⟩ := ih pr.2 rs3 v2 rs5 hr hok3
                        cases hrest : run_subtasks (task_result sem store fuel) rest rs5 with
                        | error e => simp [hrest] at hh
                        | ok q2 =>
                            obtain ⟨vs2, rs6⟩ := q2
                            simp only [hrest] at hh
                            cases hh
                            obtain ⟨⟨fc2, hc2⟩, hok6⟩ := ihl rs5 vs2 rs4 hrest hok5
                            refine ⟨⟨fc1 + fc2, ?_⟩, hok6⟩
                            rw [canonVals]
                            have hc1b := canonValF_le sem store fc1 (fc1 + fc2) pr.2 v2 (by omega) hc1
                            have hvalsmono : ∀ l2 vsx fcx, canonVals (canonValF sem store fcx) l2 = some vsx →
                                canonVals (canonValF sem store (fcx + fc1)) l2 = some vsx := by
                              intro l2
                              induction l2 with
                              | nil => intro vsx fcx hhx; exact hhx
                              | cons pr2 rest2 ihl2 =>
                                  intro vsx fcx hhx
                                  rw [canonVals] at hhx ⊢
                                  cases hva : canonValF sem store fcx pr2.2 with
                                  | none => simp [hva] at hhx
                                  | some w2 =>
                                      simp only [hva] at hhx
                                      cases hvb : canonVals (canonValF sem store fcx) rest2 with
                                      | none => simp [hvb] at hhx
                                      | some ws2 =>
                                          simp only [hvb] at hhx
                                          simp only [canonValF_le sem store fcx (fcx + fc1) pr2.2 w2 (by omega) hva,
                                            ihl2 ws2 fcx hvb]
                                          exact hhx
                            have hc2b := hvalsmono rest vs2 fc2 hc2
                            rw [Nat.add_comm fc2 fc1] at hc2b
                            rw [hc1b, hc2b]
              cases hr : run_subtasks (task_result sem store fuel) t.dependencies rs with
              | error e => simp [hr] at h
              | ok q =>
                  obtain ⟨values, rs1⟩ := q
                  simp only [hr] at h
                  obtain ⟨⟨fc, hc⟩, hok1⟩ := hlist _ _ _ _ hr hok
                  cases hcall : t.call with
                  | retrieve w =>
                      rw [hcall] at h
                      cases h
                      have hcanon : canonValF sem store (fc + 1) tid = some v := by
                        rw [canonValF]
                        simp only [hs, hc, hcall]
                      constructor
                      · exact ⟨fc + 1, hcanon⟩
                      · intro i u hu
                        by_cases hit : i = tid
                        · subst hit
                          simp only [if_pos rfl] at hu
                          cases hu
                          exact ⟨fc + 1, hcanon⟩
                        · simp only [if_neg hit] at hu
                          exact hok1 i u hu
                  | adapted p bnd =>
                      rw [hcall] at h
                      cases h
                      have hcanon : canonValF sem store (fc + 1) tid = some (sem p values) := by
                        rw [canonValF]
                        simp only [hs, hc, hcall]
                      constructor
                      · exact ⟨fc + 1, hcanon⟩
                      · intro i u hu
                        by_cases hit : i = tid
                        · subst hit
                          simp only [if_pos rfl] at hu
                          cases hu
                          exact ⟨fc + 1, hcanon⟩
                        · simp only [if_neg hit] at hu
                          exact hok1 i u hu

/-- The scope a built Task may carry: `False`, or a concrete scope whose
cleanup stack is active (the builder checked it); never the Inherit tag. -/
def taskScopeOK (s : ContainerState) : Scope → Prop
  | .unscoped => True
  | .named m => (s.stacks_ m).isSome = true
  | .inherit => False

/-- Edges of the description graph: node `a` mentions node `b` as a named
sub-dependency. -/
def GEdge (h : Nat → Option DNode) (a b : Nat) : Prop :=
  ∃ dn nm, h a = some dn ∧ (nm, b) ∈ dn.deps

/-- Invariants of the per-round build state maintained by `_build_task`. -/
structure BInv (s : ContainerState) (bs : BuildState) : Prop where
  tcSeen : ∀ pr ∈ bs.task_cache, pr.1 ∈ bs.seen
  ccSeen : ∀ q i, bs.call_cache q = some i → i ∈ bs.seen
  ccCall : ∀ q i, bs.call_cache q = some i → ∃ dn, s.heap i = some dn ∧ dn.call = q
  storeDom : ∀ i, (bs.store i).isSome = true ↔ i < bs.nextTask
  storeDeps : ∀ i t, bs.store i = some t → ∀ pr ∈ t.dependencies, pr.2 < i
  storeScope : ∀ i t, bs.store i = some t → taskScopeOK s t.scope
  calls2 : ∀ i t, bs.store i = some t → t.scope ≠ Scope.unscoped →
    ∃ nd dn, s.heap nd = some dn ∧ dn.call = t.dependantCall ∧ alLookup nd bs.task_cache = some i
  tcStore : ∀ pr ∈ bs.task_cache, pr.2 < bs.nextTask

theorem BInv_empty (s : ContainerState) : BInv s emptyBuildState := by
  constructor <;> simp [emptyBuildState]

/-- Prepending to the seen set preserves the build invariants. -/
theorem BInv_cons_seen (s : ContainerState) (bs : BuildState) (d : Nat) (h : BInv s bs) :
    BInv s { bs with seen := d :: bs.seen } := by
  constructor
  · exact fun pr hpr => List.mem_cons_of_mem _ (h.tcSeen pr hpr)
  · exact fun q i hq => List.mem_cons_of_mem _ (h.ccSeen q i hq)
  · exact h.ccCall
  · exact h.storeDom
  · exact h.storeDeps
  · exact h.storeScope
  · exact h.calls2
  · exact h.tcStore

theorem substitute_bind_none (s : ContainerState) (d : Nat) (dn : DNode)
    (h : s.binds dn.call = none) : substitute_bind s d dn = .ok (d, dn) := by
  rw [substitute_bind, h]

theorem resolve_scope_not_inherit (s : ContainerState) (sc sc2 : Scope)
    (h : resolve_scope s sc = .ok sc2) : sc2 ≠ Scope.inherit := by
  cases sc with
  | unscoped => cases h; simp
  | inherit =>
      rw [resolve_scope] at h
      cases hl : s.scopes.getLast? with
      | none => rw [hl] at h; cases h
      | some m => rw [hl] at h; cases h; simp
  | named m => cases h; simp

/-- Specification of the call-cache deduplication step when the provider has
no canonical entry yet (or the scope is Unscoped): the dependant passes through
unchanged and at most its own call-cache registration is added. -/
theorem dedupe_call_spec (s : ContainerState) (scope0 : Scope) (d : Nat) (dn : DNode)
    (bs : BuildState) (d2 : Nat) (dn2 : DNode) (bsM : BuildState)
    (hccmiss : scope0 ≠ Scope.unscoped → bs.call_cache dn.call = none)
    (hded : dedupe_call s scope0 d dn bs = .ok (d2, dn2, bsM)) :
    d2 = d ∧ dn2 = dn ∧ bsM.seen = bs.seen ∧ bsM.task_cache = bs.task_cache ∧
    bsM.store = bs.store ∧ bsM.nextTask = bs.nextTask ∧
    (∀ q, bsM.call_cache q = bs.call_cache q ∨ (q = dn.call ∧ bsM.call_cache q = some d)) := by
  rw [dedupe_call] at hded
  by_cases hsc : scope0 = Scope.unscoped
  · rw [if_pos hsc] at hded
    cases hded
    exact ⟨rfl, rfl, rfl, rfl, rfl, rfl, fun q => Or.inl rfl⟩
  · rw [if_neg hsc, hccmiss hsc] at hded
    cases hded
    refine ⟨rfl, rfl, rfl, rfl, rfl, rfl, ?_⟩
    intro q
    by_cases hq : q = dn.call
    · exact Or.inr ⟨hq, by simp [hq]⟩
    · exact Or.inl (by simp [hq])

/-- Inversion of a successful `_build_task` call over a heap with injective
provider references and an empty binding table: the node was unseen, no
substitution or deduplication redirect occurred, its sub-dependencies were all
built, and the result state extends the sub-build state with one freshly
allocated task recorded in the task cache under the node. -/
theorem build_task_ok_inversion (s : ContainerState)
    (hinj : ∀ i j ni nj, s.heap i = some ni → s.heap j = some nj → ni.call = nj.call → i = j)
    (hbinds : ∀ q, s.binds q = none)
    (fuel : Nat) (d : Nat) (bs : BuildState) (b : Bool) (tid : Nat) (bs2 : BuildState)
    (hBI : BInv s bs)
    (h : build_task s (fuel+1) d bs = .ok (b, tid, bs2)) :
    d ∉ bs.seen ∧
    ∃ dn scope0 bsM allow subs bs3,
      s.heap d = some dn ∧
      resolve_scope s dn.scope = .ok scope0 ∧
      bsM.seen = d :: bs.seen ∧ bsM.task_cache = bs.task_cache ∧
      bsM.store = bs.store ∧ bsM.nextTask = bs.nextTask ∧
      (∀ q, bsM.call_cache q = bs.call_cache q ∨ (q = dn.call ∧ bsM.call_cache q = some d)) ∧
      build_subtasks (build_task s fuel) dn.deps true bsM = .ok (allow, subs, bs3) ∧
      tid = bs3.nextTask ∧
      bs2.seen = bs3.seen ∧ bs2.call_cache = bs3.call_cache ∧
      bs2.nextTask = bs3.nextTask + 1 ∧
      bs2.task_cache = alInsert d bs3.nextTask bs3.task_cache ∧
      ∃ task : Task,
        bs2.store = (fun i => if i = bs3.nextTask then some task else bs3.store i) ∧
        task.dependantCall = dn.call ∧
        (∀ pr ∈ task.dependencies, pr ∈ subs) ∧
        taskScopeOK s task.scope ∧
        (task.scope ≠ Scope.unscoped → task.scope = scope0) := by
  rw [build_task] at h
  by_cases hseen : d ∈ bs.seen
  · rw [if_pos hseen] at h
    cases h
  rw [if_neg hseen] at h
  refine ⟨hseen, ?_⟩
  cases hdn : s.heap d with
  | none => simp only [hdn] at h; cases h
  | some dn =>
  simp only [hdn] at h
  cases hres : resolve_scope s dn.scope with
  | error e => simp only [hres] at h; cases h
  | ok scope0 =>
  simp only [hres] at h
  rw [substitute_bind_none s d dn (hbinds dn.call)] at h
  simp only [] at h
  have hccmiss : scope0 ≠ Scope.unscoped →
      ({ bs with seen := d :: bs.seen } : BuildState).call_cache dn.call = none := by
    intro _
    cases hcc : bs.call_cache dn.call with
    | none => rfl
    | some cId =>
        obtain ⟨cn, hcn, hcncall⟩ := hBI.ccCall _ _ hcc
        have heq : cId = d := hinj cId d cn dn hcn hdn (by rw [hcncall])
        subst heq
        exact absurd (hBI.ccSeen _ _ hcc) hseen
  cases hded : dedupe_call s scope0 d dn { bs with seen := d :: bs.seen } with
  | error e => simp only [hded] at h; cases h
  | ok trip =>
  obtain ⟨d2, dn2, bsM⟩ := trip
  simp only [hded] at h
  obtain ⟨hd2, hdn2, hMseen, hMtc, hMstore, hMnext, hMcc⟩ :=
    dedupe_call_spec s scope0 d dn _ d2 dn2 bsM hccmiss hded
  rw [hd2, hdn2] at h
  have htcmiss : alLookup d bsM.task_cache = none := by
    rw [hMtc]
    cases htc : alLookup d bs.task_cache with
    | none => rfl
    | some tid0 => exact absurd (hBI.tcSeen _ (alLookup_mem _ _ _ htc)) hseen
  rw [htcmiss] at h
  simp only [hres] at h
  cases hchk : check_scope s scope0 with
  | error e => simp only [hchk] at h; cases h
  | ok u =>
  simp only [hchk] at h
  cases hbnd : boundScopeOf s scope0 with
  | error e => simp only [hbnd] at h; cases h
  | ok bound =>
  simp only [hbnd] at h
  by_cases hstk : (s.stacks_ bound).isSome = true
  swap
  · rw [if_neg hstk] at h
    cases h
  rw [if_pos hstk] at h
  cases hsub : build_subtasks (build_task s fuel) dn.deps true bsM with
  | error e => simp only [hsub] at h; cases h
  | ok trip2 =>
  obtain ⟨allow, subs, bs3⟩ := trip2
  simp only [hsub] at h
  have hscope0OK : taskScopeOK s scope0 := by
    cases scope0 with
    | unscoped => trivial
    | inherit => exact absurd rfl (resolve_scope_not_inherit s dn.scope _ hres)
    | named m =>
        rw [check_scope] at hchk
        by_cases hm : (s.stacks_ m).isSome = true
        · exact hm
        · rw [if_neg hm] at hchk; cases hchk
  cases hcsr : (if allow = true ∧ scope0 ≠ Scope.unscoped
                then cacheSearch s dn.call else (.ok none : Except Err (Option Nat))) with
  | error e => simp only [hcsr] at h; cases h
  | ok vo =>
  cases vo with
  | some v =>
      simp only [hcsr, allocTask] at h
      cases h
      refine ⟨dn, scope0, bsM, allow, subs, bs3, rfl, hres,
        hMseen, hMtc, hMstore, hMnext, hMcc, hsub, rfl, rfl, rfl, rfl, rfl,
        task_from_cached_value dn.call v, rfl, rfl, ?_, ?_, ?_⟩
      · intro pr hpr
        simp [task_from_cached_value] at hpr
      · trivial
      · intro hne
        exact absurd rfl hne
  | none =>
      simp only [hcsr, allocTask] at h
      cases h
      exact ⟨dn, scope0, bsM, allow, subs, bs3, rfl, hres,
        hMseen, hMtc, hMstore, hMnext, hMcc, hsub, rfl, rfl, rfl, rfl, rfl,
        { dependantCall := dn.call, scope := scope0,
          call := .adapted dn.call bound, dependencies := subs }, rfl, rfl,
        fun pr hpr => hpr, hscope0OK, fun _ => rfl⟩

/-- Looking anything up after re-inserting a key with the value it already has
changes nothing. -/
theorem alInsert_lookup_eq (k v : Nat) (l : List (Nat × Nat)) (h : alLookup k l = some v) :
    ∀ k2, alLookup k2 (alInsert k v l) = alLookup k2 l := by
  intro k2
  by_cases hk : k2 = k
  · subst hk
    rw [alLookup_insert_self, h]
  · exact alLookup_insert_ne k k2 v l hk

/-- Re-inserting an existing task-cache pair preserves the build invariants. -/
theorem BInv_insert_dup (s : ContainerState) (bs : BuildState) (k v : Nat)
    (hBI : BInv s bs) (hl : alLookup k bs.task_cache = some v) :
    BInv s { bs with task_cache := alInsert k v bs.task_cache } := by
  have hmem := alLookup_mem _ _ _ hl
  constructor
  · intro pr hpr
    cases alInsert_mem _ _ _ _ hpr with
    | inl he => exact he ▸ hBI.tcSeen _ hmem
    | inr he => exact hBI.tcSeen _ he
  · exact hBI.ccSeen
  · exact hBI.ccCall
  · exact hBI.storeDom
  · exact hBI.storeDeps
  · exact hBI.storeScope
  · intro i t hst hsc
    obtain ⟨nd, dn, h1, h2, h3⟩ := hBI.calls2 i t hst hsc
    exact ⟨nd, dn, h1, h2, by rw [alInsert_lookup_eq k v _ hl]; exact h3⟩
  · intro pr hpr
    cases alInsert_mem _ _ _ _ hpr with
    | inl he => exact he ▸ hBI.tcStore _ hmem
    | inr he => exact hBI.tcStore _ he

/-- Preservation of the build invariants by a successful `_build_task` over an
injective heap with no bindings, together with the frame facts needed to
compose successive builds. -/
theorem build_task_inv (s : ContainerState)
    (hinj : ∀ i j ni nj, s.heap i = some ni → s.heap j = some nj → ni.call = nj.call → i = j)
    (hbinds : ∀ q, s.binds q = none) :
    ∀ fuel d bs b tid bs2,
      build_task s fuel d bs = .ok (b, tid, bs2) → BInv s bs →
      BInv s bs2 ∧
      (∀ x ∈ bs.seen, x ∈ bs2.seen) ∧
      d ∈ bs2.seen ∧
      bs.nextTask ≤ bs2.nextTask ∧
      (∀ i, i < bs.nextTask → bs2.store i = bs.store i) ∧
      (∀ k, alLookup k bs2.task_cache ≠ alLookup k bs.task_cache → k ∉ bs.seen ∧ k ∈ bs2.seen) ∧
      tid < bs2.nextTask ∧
      alLookup d bs2.task_cache = some tid := by
  intro fuel
  induction fuel with
  | zero =>
      intro d bs b tid bs2 h
      simp [build_task] at h
  | succ fuel ih =>
      intro d bs b tid bs2 h hBI
      obtain ⟨hseen, dn, scope0, bsM, allow, subs, bs3, hdn, hres, hMseen, hMtc, hMstore,
        hMnext, hMcc, hsub, htid, h2seen, h2cc, h2next, h2tc, task, h2store, htcall,
        htdeps, htscope, htscopeeq⟩ := build_task_ok_inversion s hinj hbinds fuel d bs b tid bs2 hBI h
      have hBIM : BInv s bsM := by
        constructor
        · intro pr hpr
          rw [hMtc] at hpr
          rw [hMseen]
          exact List.mem_cons_of_mem _ (hBI.tcSeen _ hpr)
        · intro q i hq
          rw [hMseen]
          cases hMcc q with
          | inl he =>
              rw [he] at hq
              exact List.mem_cons_of_mem _ (hBI.ccSeen _ _ hq)
          | inr he =>
              rw [he.2] at hq
              cases hq
              exact List.mem_cons_self _ _
        · intro q i hq
          cases hMcc q with
          | inl he =>
              rw [he] at hq
              exact hBI.ccCall _ _ hq
          | inr he =>
              rw [he.2] at hq
              cases hq
              exact ⟨dn, hdn, he.1.symm⟩
        · intro i
          rw [hMstore, hMnext]
          exact hBI.storeDom i
        · intro i t hst
          rw [hMstore] at hst
          exact hBI.storeDeps i t hst
        · intro i t hst
          rw [hMstore] at hst
          exact hBI.storeScope i t hst
        · intro i t hst hsc
          rw [hMstore] at hst
          obtain ⟨nd, dn2, w1, w2, w3⟩ := hBI.calls2 i t hst hsc
          exact ⟨nd, dn2, w1, w2, by rw [hMtc]; exact w3⟩
        · intro pr hpr
          rw [hMtc] at hpr
          rw [hMnext]
          exact hBI.tcStore _ hpr
      have hlist : ∀ l flag bsA flag2 subsA bsB,
          build_subtasks (build_task s fuel) l flag bsA = .ok (flag2, subsA, bsB) → BInv s bsA →
          BInv s bsB ∧
          (∀ x ∈ bsA.seen, x ∈ bsB.seen) ∧
          bsA.nextTask ≤ bsB.nextTask ∧
          (∀ i, i < bsA.nextTask → bsB.store i = bsA.store i) ∧
          (∀ k, alLookup k bsB.task_cache ≠ alLookup k bsA.task_cache → k ∉ bsA.seen ∧ k ∈ bsB.seen) ∧
          (∀ pr ∈ subsA, pr.2 < bsB.nextTask) := by
        intro l
        induction l with
        | nil =>
            intro flag bsA flag2 subsA bsB hh hBIA
            cases hh
            exact ⟨hBIA, fun x hx => hx, Nat.le_refl _, fun i _ => rfl,
              fun k hk => absurd rfl hk, fun pr hpr => absurd hpr (List.not_mem_nil _)⟩
        | cons pr rest ihl =>
            intro flag bsA flag2 subsA bsB hh hBIA
            rw [build_subtasks] at hh
            cases hr : build_task s fuel pr.2 bsA with
            | error e => simp [hr] at hh
            | ok trip =>
                obtain ⟨flagC, tidC, bsC⟩ := trip
                simp only [hr] at hh
                obtain ⟨hBIC, hseenC, hdC, hntC, hstC, htcC, htidC, hlookC⟩ :=
                  ih pr.2 bsA flagC tidC bsC hr hBIA
                have hBIC2 := BInv_insert_dup s bsC pr.2 tidC hBIC hlookC
                cases hrest : build_subtasks (build_task s fuel) rest flagC
                    { bsC with task_cache := alInsert pr.2 tidC bsC.task_cache } with
                | error e => simp [hrest] at hh
                | ok trip2 =>
                    obtain ⟨flagD, subsD, bsD⟩ := trip2
                    simp only [hrest] at hh
                    cases hh
                    obtain ⟨hBID, hseenD, hntD, hstD, htcD, hsubsD⟩ :=
                      ihl flagC _ flag2 subsD bsB hrest hBIC2
                    refine ⟨hBID, ?_, ?_, ?_, ?_, ?_⟩
                    · intro x hx
                      exact hseenD x (hseenC x hx)
                    · exact Nat.le_trans hntC hntD
                    · intro i hi
                      rw [hstD i (Nat.lt_of_lt_of_le hi hntC), hstC i hi]
                    · intro k hk
                      by_cases hkD : alLookup k bsB.task_cache =
                          alLookup k (alInsert pr.2 tidC bsC.task_cache)
                      · rw [hkD, alInsert_lookup_eq _ _ _ hlookC] at hk
                        obtain ⟨hk1, hk2⟩ := htcC k hk
                        exact ⟨hk1, hseenD _ hk2⟩
                      · obtain ⟨hk1, hk2⟩ := htcD k hkD
                        exact ⟨fun hx => hk1 (hseenC k hx), hk2⟩
                    · intro pr2 hpr2
                      cases List.mem_cons.mp hpr2 with
                      | inl he =>
                          rw [he]
                          exact Nat.lt_of_lt_of_le htidC hntD
                      | inr he => exact hsubsD _ he
      obtain ⟨hBI3, hseen3, hnt3, hst3, htc3, hsubs3⟩ := hlist dn.deps true bsM allow subs bs3 hsub hBIM
      have hdseen3 : d ∈ bs3.seen := hseen3 d (by rw [hMseen]; exact List.mem_cons_self _ _)
      have hbsSeen3 : ∀ x ∈ bs.seen, x ∈ bs3.seen := by
        intro x hx
        exact hseen3 x (by rw [hMseen]; exact List.mem_cons_of_mem _ hx)
      have hdnone3 : alLookup d bs3.task_cache = none := by
        by_cases hch : alLookup d bs3.task_cache = alLookup d bsM.task_cache
        · rw [hch, hMtc]
          cases htc : alLookup d bs.task_cache with
          | none => rfl
          | some w => exact absurd (hBI.tcSeen _ (alLookup_mem _ _ _ htc)) hseen
        · obtain ⟨hk1, _⟩ := htc3 d hch
          exact absurd (by rw [hMseen]; exact List.mem_cons_self _ _) hk1
      have hBI2 : BInv s bs2 := by
        constructor
        · intro pr hpr
          rw [h2tc] at hpr
          rw [h2seen]
          cases alInsert_mem _ _ _ _ hpr with
          | inl he => rw [he]; exact hdseen3
          | inr he => exact hBI3.tcSeen _ he
        · intro q i hq
          rw [h2cc] at hq
          rw [h2seen]
          exact hBI3.ccSeen _ _ hq
        · intro q i hq
          rw [h2cc] at hq
          exact hBI3.ccCall _ _ hq
        · intro i
          simp only [h2store, h2next]
          by_cases hi : i = bs3.nextTask
          · subst hi
            simp
          · rw [if_neg hi]
            rw [hBI3.storeDom i]
            omega
        · intro i t hst pr hpr
          simp only [h2store] at hst
          by_cases hi : i = bs3.nextTask
          · rw [if_pos hi] at hst
            cases hst
            rw [hi]
            exact hsubs3 pr (htdeps pr hpr)
          · rw [if_neg hi] at hst
            exact hBI3.storeDeps i t hst pr hpr
        · intro i t hst
          simp only [h2store] at hst
          by_cases hi : i = bs3.nextTask
          · rw [if_pos hi] at hst
            cases hst
            exact htscope
          · rw [if_neg hi] at hst
            exact hBI3.storeScope i t hst
        · intro i t hst hsc
          simp only [h2store] at hst
          by_cases hi : i = bs3.nextTask
          · rw [if_pos hi] at hst
            cases hst
            refine ⟨d, dn, hdn, htcall.symm, ?_⟩
            rw [h2tc, hi]
            exact alLookup_insert_self _ _ _
          · rw [if_neg hi] at hst
            obtain ⟨nd, dn2, w1, w2, w3⟩ := hBI3.calls2 i t hst hsc
            have hnd : nd ≠ d := by
              intro he
              rw [he, hdnone3] at w3
              cases w3
            refine ⟨nd, dn2, w1, w2, ?_⟩
            rw [h2tc, alLookup_insert_ne _ _ _ _ hnd]
            exact w3
        · intro pr hpr
          rw [h2tc] at hpr
          rw [h2next]
          cases alInsert_mem _ _ _ _ hpr with
          | inl he => rw [he]; omega
          | inr he => exact Nat.lt_of_lt_of_le (hBI3.tcStore _ he) (by omega)
      refine ⟨hBI2, ?_, ?_, ?_, ?_, ?_, ?_, ?_⟩
      · intro x hx
        rw [h2seen]
        exact hbsSeen3 x hx
      · rw [h2seen]
        exact hdseen3
      · rw [h2next]
        omega
      · intro i hi
        have hiM : i < bsM.nextTask := by omega
        simp only [h2store]
        rw [if_neg (by omega : ¬ i = bs3.nextTask)]
        rw [hst3 i hiM, hMstore]
      · intro k hk
        by_cases hkd : k = d
        · subst hkd
          exact ⟨hseen, by rw [h2seen]; exact hdseen3⟩
        · rw [h2tc, alLookup_insert_ne _ _ _ _ hkd] at hk
          by_cases hch : alLookup k bs3.task_cache = alLookup k bsM.task_cache
          · rw [hch, hMtc] at hk
            exact absurd rfl hk
          · obtain ⟨h1, h2⟩ := htc3 k hch
            exact ⟨fun hx => h1 (by rw [hMseen]; exact List.mem_cons_of_mem _ hx),
              by rw [h2seen]; exact h2⟩
      · rw [htid, h2next]
        omega
      · rw [htid, h2tc]
        exact alLookup_insert_self _ _ _

def okGuards (gs : List GuardSpec) : List GuardSpec :=
  gs.takeWhile (fun g => g.enterOk)

/-- Effect of a sequence of guard acquisitions on the bound scope's cleanup
stack: the teardowns of the successful prefix are appended in order, and the
outcome is a success exactly when every acquisition succeeded. -/
theorem acquire_all_stacks (sc : String) (gs : List GuardSpec)
    (s : ContainerState) (regs : List Nat) (h : s.stacks_ sc = some regs) :
    ((acquire_all sc gs s).1).stacks_ sc = some (regs ++ (okGuards gs).map (fun g => g.teardownId)) ∧
    ((∀ g ∈ gs, g.enterOk = true) → ∃ vs, (acquire_all sc gs s).2 = .ok vs) := by
  induction gs generalizing s regs with
  | nil => simp [acquire_all, okGuards, h]
  | cons g gs ih =>
      by_cases hg : g.enterOk
      · have hstep : acquire_guard sc g s =
            ({ s with stacks_ := fun x => if x = sc then some (regs ++ [g.teardownId]) else s.stacks_ x },
             .ok g.value) := by
          simp [acquire_guard, hg, h]
        have hnext : ({ s with stacks_ := fun x => if x = sc then some (regs ++ [g.teardownId]) else s.stacks_ x } :
            ContainerState).stacks_ sc = some (regs ++ [g.teardownId]) := by simp
        obtain ⟨ih1, ih2⟩ := ih _ _ hnext
        constructor
        · rw [acquire_all, hstep]
          cases hrec : acquire_all sc gs { s with stacks_ := fun x => if x = sc then some (regs ++ [g.teardownId]) else s.stacks_ x } with
          | mk s2 out =>
              cases out with
              | error e =>
                  simp only [hrec] at ih1 ⊢
                  simpa [okGuards, hg] using ih1
              | ok vs =>
                  simp only [hrec] at ih1 ⊢
                  simpa [okGuards, hg] using ih1
        · intro hall
          rw [acquire_all, hstep]
          obtain ⟨vs, hvs⟩ := ih2 (fun x hx => hall x (List.mem_cons_of_mem _ hx))
          cases hrec : acquire_all sc gs { s with stacks_ := fun x => if x = sc then some (regs ++ [g.teardownId]) else s.stacks_ x } with
          | mk s2 out =>
              rw [hrec] at hvs
              have hout : out = Except.ok vs := hvs
              subst hout
              simp only [hrec]
              exact ⟨g.value :: vs, rfl⟩
      · have hg2 : g.enterOk = false := by simpa using hg
        constructor
        · rw [acquire_all]
          simp [acquire_guard, hg2, okGuards, List.takeWhile, h]
        · intro hall
          exact absurd (hall g (List.mem_cons_self _ _)) (by simp [hg2])

/-- Building a single Unscoped, dependency-free description node: the adapted
call is bound to the innermost active scope's stack. -/
theorem build_single_unscoped (s : ContainerState) (root : Nat) (p : Nat)
    (inner : String) (stk : List Nat) (fuel : Nat)
    (hheap : s.heap root = some { call := p, scope := Scope.unscoped, deps := [] })
    (hbind : s.binds p = none)
    (hlast : s.scopes.getLast? = some inner)
    (hstk : s.stacks_ inner = some stk) :
    build_task s (fuel+1) root emptyBuildState = .ok (false, 0,
      { seen := [root]
        call_cache := fun _ => none
        task_cache := [(root, 0)]
        store := fun i => if i = 0 then
          some { dependantCall := p, scope := Scope.unscoped,
                 call := TaskCall.adapted p inner, dependencies := [] } else none
        nextTask := 1 }) := by
  simp [build_task, emptyBuildState, hheap, hbind, hlast, hstk, resolve_scope, check_scope,
    substitute_bind, dedupe_call, boundScopeOf, build_subtasks, allocTask, alLookup, alInsert]

/-- Building a single dependency-free description node in scope `n` when the
cached-value search misses: a fresh adapted Task in scope `n` is created. -/
theorem build_single_named_miss (s : ContainerState) (root : Nat) (p : Nat)
    (n : String) (stk : List Nat) (fuel : Nat)
    (hheap : s.heap root = some { call := p, scope := Scope.named n, deps := [] })
    (hbind : s.binds p = none)
    (hstk : s.stacks_ n = some stk)
    (hsearch : cacheSearch s p = Except.ok none) :
    build_task s (fuel+1) root emptyBuildState = .ok (false, 0,
      { seen := [root]
        call_cache := fun q => if q = p then some root else none
        task_cache := [(root, 0)]
        store := fun i => if i = 0 then
          some { dependantCall := p, scope := Scope.named n,
                 call := TaskCall.adapted p n, dependencies := [] } else none
        nextTask := 1 }) := by
  simp [build_task, emptyBuildState, hheap, hbind, hstk, hsearch, resolve_scope, check_scope,
    substitute_bind, dedupe_call, boundScopeOf, build_subtasks, allocTask, alLookup, alInsert]

/-- Building a single dependency-free description node in scope `n` when the
cached-value search hits `v`: the Task is the trivial cached-value retriever
(scope False, nothing will be re-invoked). -/
theorem build_single_named_hit (s : ContainerState) (root : Nat) (p : Nat)
    (n : String) (stk : List Nat) (fuel : Nat) (v : Nat)
    (hheap : s.heap root = some { call := p, scope := Scope.named n, deps := [] })
    (hbind : s.binds p = none)
    (hstk : s.stacks_ n = some stk)
    (hsearch : cacheSearch s p = Except.ok (some v)) :
    build_task s (fuel+1) root emptyBuildState = .ok (true, 0,
      { seen := [root]
        call_cache := fun q => if q = p then some root else none
        task_cache := [(root, 0)]
        store := fun i => if i = 0 then some (task_from_cached_value p v) else none
        nextTask := 1 }) := by
  simp [build_task, emptyBuildState, hheap, hbind, hstk, hsearch, resolve_scope, check_scope,
    substitute_bind, dedupe_call, boundScopeOf, build_subtasks, allocTask, alLookup, alInsert]

/-- The cached-value search returns nothing when every active scope has a
bucket without an entry for the provider. -/
theorem cacheSearchGo_none (s : ContainerState) (p : Nat) (l : List String)
    (h : ∀ m ∈ l, ∃ b, s.cached_values m = some b ∧ b p = none) :
    cacheSearchGo s p l = .ok none := by
  induction l with
  | nil => rfl
  | cons m rest ih =>
      obtain ⟨b, hb, hbp⟩ := h m (List.mem_cons_self _ _)
      rw [cacheSearchGo, hb]
      simp only [hbp]
      exact ih (fun x hx => h x (List.mem_cons_of_mem _ hx))

/-- The cached-value search finds `v` when scope `n` holds it for the provider
and every other active scope's bucket has no entry for it. -/
theorem cacheSearchGo_hit (s : ContainerState) (p : Nat) (l : List String)
    (n : String) (v : Nat) (hn : n ∈ l)
    (h : ∀ m ∈ l, ∃ b, s.cached_values m = some b ∧ b p = (if m = n then some v else none)) :
    cacheSearchGo s p l = .ok (some v) := by
  induction l with
  | nil => cases hn
  | cons m rest ih =>
      obtain ⟨b, hb, hbp⟩ := h m (List.mem_cons_self _ _)
      by_cases hm : m = n
      · rw [cacheSearchGo, hb]
        simp only [hbp, if_pos hm]
      · rw [cacheSearchGo, hb]
        simp only [hbp, if_neg hm]
        have hn2 : n ∈ rest := by
          cases List.mem_cons.mp hn with
          | inl hh => exact absurd hh.symm hm
          | inr hh => exact hh
        exact ih hn2 (fun x hx => h x (List.mem_cons_of_mem _ hx))

/-- Executing a single dependency-free description in active scope `n` when the
search hits a cached value: the cached value is returned, the provider is not
invoked, and the container state is unchanged. -/
theorem exec_single_named_hit (sem : Nat → List (String × Nat) → Nat)
    (s : ContainerState) (root : Nat) (p : Nat)
    (n : String) (stk : List Nat) (fuel : Nat) (v : Nat)
    (hheap : s.heap root = some { call := p, scope := Scope.named n, deps := [] })
    (hbind : s.binds p = none)
    (hstk : s.stacks_ n = some stk)
    (hsearch : cacheSearch s p = Except.ok (some v)) :
    execute sem (fuel+2) s root = .ok (v, s, []) := by
  have hstep : (fuel+2) = (fuel+1)+1 := rfl
  rw [hstep]
  have hb := build_single_named_hit s root p n stk (fuel+1) v hheap hbind hstk hsearch
  rw [execute, hb]
  simp [task_result, run_subtasks, write_loop, resolve_scope, task_from_cached_value,
    emptyRunState]

/-- Executing a single dependency-free description in active scope `n` when the
search misses: the provider is invoked once, its value is returned and written
into scope `n`'s result cache, and nothing else about the state changes. -/
theorem exec_single_named_miss (sem : Nat → List (String × Nat) → Nat)
    (s : ContainerState) (root : Nat) (p : Nat)
    (n : String) (stk : List Nat) (fuel : Nat) (bucket0 : Nat → Option Nat)
    (hheap : s.heap root = some { call := p, scope := Scope.named n, deps := [] })
    (hbind : s.binds p = none)
    (hstk : s.stacks_ n = some stk)
    (hsearch : cacheSearch s p = Except.ok none)
    (hbucket : s.cached_values n = some bucket0) :
    ∃ s1, execute sem (fuel+2) s root = .ok (sem p [], s1, [p]) ∧
      s1.heap = s.heap ∧ s1.binds = s.binds ∧ s1.stacks_ = s.stacks_ ∧ s1.scopes = s.scopes ∧
      (∀ m, m ≠ n → s1.cached_values m = s.cached_values m) ∧
      (∃ b1, s1.cached_values n = some b1 ∧ b1 p = some (sem p []) ∧
        ∀ q, q ≠ p → b1 q = bucket0 q) := by
  have hstep : (fuel+2) = (fuel+1)+1 := rfl
  rw [hstep]
  have hb := build_single_named_miss s root p n stk (fuel+1) hheap hbind hstk hsearch
  rw [execute, hb]
  simp only [task_result, run_subtasks, emptyRunState, resolve_scope]
  simp [cache_write, hbucket, write_loop, task_result, resolve_scope, run_subtasks]
  constructor
  · intro m hm; simp [hm]
  · intro q hq; simp [hq]

/-- Result-cache read through a scope bucket: the value stored for provider
`p` in scope `n`'s result cache, when the scope has a bucket. -/
def bucketVal (s : ContainerState) (n : String) (p : Nat) : Option Nat :=
  match s.cached_values n with
  | none => none
  | some bucket => bucket p

/-- `_resolve_scope` reads only the active scope list. -/
theorem resolve_scope_scopes (s1 s : ContainerState) (h : s1.scopes = s.scopes) :
    ∀ x, resolve_scope s1 x = resolve_scope s x := by
  intro x
  cases x <;> simp [resolve_scope, h]

/-- A tag that resolves to a concrete scope is not the Unscoped tag. -/
theorem resolve_named_not_unscoped (s : ContainerState) (sc : Scope) (n : String)
    (h : resolve_scope s sc = .ok (.named n)) : sc ≠ Scope.unscoped := by
  intro he
  subst he
  simp [resolve_scope] at h

/-- Specification of a successful result-cache write: the scope list is
untouched, the written key reads back the value, every other (scope, key)
reads as before. -/
theorem cache_write_spec (s : ContainerState) (n : String) (p v : Nat) (s1 : ContainerState)
    (h : cache_write s n p v = .ok s1) :
    s1.scopes = s.scopes ∧
    bucketVal s1 n p = some v ∧
    (∀ n2 p2, ¬(n2 = n ∧ p2 = p) → bucketVal s1 n2 p2 = bucketVal s n2 p2) := by
  rw [cache_write] at h
  cases hb : s.cached_values n with
  | none => rw [hb] at h; cases h
  | some bucket =>
      rw [hb] at h
      cases h
      refine ⟨rfl, ?_, ?_⟩
      · simp [bucketVal]
      · intro n2 p2 hne
        by_cases hn : n2 = n
        · subst hn
          have hp : p2 ≠ p := fun hp => hne ⟨rfl, hp⟩
          simp [bucketVal, hb, hp]
        · simp [bucketVal, hn]

/-- Over an injective heap, two stored tasks that cache (non-Unscoped scope)
and share a provider reference are the same task: each came from a description
node whose `call` is the provider, the heap has one such node, and the task
cache maps it to one task id. -/
theorem store_calls_injective (s : ContainerState)
    (hinj : ∀ i j ni nj, s.heap i = some ni → s.heap j = some nj → ni.call = nj.call → i = j)
    (bs : BuildState) (hBI : BInv s bs) :
    ∀ i j ti tj, bs.store i = some ti → bs.store j = some tj →
      ti.scope ≠ Scope.unscoped → tj.scope ≠ Scope.unscoped →
      ti.dependantCall = tj.dependantCall → i = j := by
  intro i j ti tj hi hj hsi hsj hcall
  obtain ⟨ni, dni, hni, hci, hli⟩ := hBI.calls2 i ti hi hsi
  obtain ⟨nj, dnj, hnj, hcj, hlj⟩ := hBI.calls2 j tj hj hsj
  have hnn : ni = nj := hinj ni nj dni dnj hni hnj (by rw [hci, hcj, hcall])
  subst hnn
  rw [hli] at hlj
  cases hlj
  rfl

/-- Postcondition of the execute cache-warming loop (container.py lines
215-219): the scope list and memo-consistency are preserved; a cache entry
whose key can only ever be rewritten with its own task's canonical value
survives the loop; and every listed task whose resolved scope is a concrete
scope ends with a canonical value for it cached in that scope keyed by the
task's provider reference. -/
theorem write_loop_post (sem : Nat → List (String × Nat) → Nat)
    (store : Nat → Option Task) (s : ContainerState)
    (hdistinct : ∀ i j ti tj, store i = some ti → store j = some tj →
      ti.scope ≠ Scope.unscoped → tj.scope ≠ Scope.unscoped →
      ti.dependantCall = tj.dependantCall → i = j) :
    ∀ l fuel s0 rs s2 rs2,
      s0.scopes = s.scopes →
      write_loop sem store fuel l s0 rs = .ok (s2, rs2) →
      MemoOK sem store rs →
      s2.scopes = s.scopes ∧ MemoOK sem store rs2 ∧
      (∀ n p w0,
        bucketVal s0 n p = some w0 →
        (∀ tid t, (∃ k, (k, tid) ∈ l) → store tid = some t → t.dependantCall = p →
          resolve_scope s t.scope = .ok (.named n) →
          ∃ fc, canonValF sem store fc tid = some w0) →
        bucketVal s2 n p = some w0) ∧
      (∀ pr ∈ l, ∀ t, store pr.2 = some t → ∀ n,
        resolve_scope s t.scope = .ok (.named n) →
        ∃ w, bucketVal s2 n t.dependantCall = some w ∧
          ∃ fc, canonValF sem store fc pr.2 = some w) := by
  intro l
  induction l with
  | nil =>
      intro fuel s0 rs s2 rs2 hsc h hok
      cases h
      exact ⟨hsc, hok, fun n p w0 hb _ => hb, fun pr hpr => absurd hpr (List.not_mem_nil _)⟩
  | cons hd rest ihl =>
      intro fuel s0 rs s2 rs2 hsc h hok
      obtain ⟨k, tid⟩ := hd
      rw [write_loop] at h
      cases hst : store tid with
      | none => simp only [hst] at h; cases h
      | some t =>
          simp only [hst] at h
          rw [resolve_scope_scopes s0 s hsc t.scope] at h
          cases hres : resolve_scope s t.scope with
          | error e => simp only [hres] at h; cases h
          | ok sc =>
              simp only [hres] at h
              cases sc with
              | inherit => simp only [] at h; cases h
              | unscoped =>
                  obtain ⟨hsc2, hok2, hframe, hwarm⟩ := ihl fuel s0 rs s2 rs2 hsc h hok
                  refine ⟨hsc2, hok2, ?_, ?_⟩
                  · intro n p w0 hb hcm
                    exact hframe n p w0 hb (fun tid2 t2 hmem => hcm tid2 t2
                      (hmem.imp fun k2 hk => List.mem_cons_of_mem _ hk))
                  · intro pr hpr t2 hst2 n2 hres2
                    cases List.mem_cons.mp hpr with
                    | inl he =>
                        subst he
                        have hst2b : store tid = some t2 := hst2
                        rw [hst] at hst2b
                        cases hst2b
                        rw [hres] at hres2
                        cases hres2
                    | inr he => exact hwarm pr he t2 hst2 n2 hres2
              | named n =>
                  cases htr : task_result sem store fuel tid rs with
                  | error e => simp only [htr] at h; cases h
                  | ok q =>
                      obtain ⟨w, rs1⟩ := q
                      simp only [htr] at h
                      obtain ⟨⟨fc, hcanon⟩, hok1⟩ :=
                        task_result_canon sem store fuel tid rs w rs1 htr hok
                      cases hcw : cache_write s0 n t.dependantCall w with
                      | error e => simp only [hcw] at h; cases h
                      | ok s1 =>
                          simp only [hcw] at h
                          obtain ⟨hsc1, hbv1, hframe1⟩ :=
                            cache_write_spec s0 n t.dependantCall w s1 hcw
                          have hsc1b : s1.scopes = s.scopes := by rw [hsc1, hsc]
                          obtain ⟨hsc2, hok2, hframe, hwarm⟩ :=
                            ihl fuel s1 rs1 s2 rs2 hsc1b h hok1
                          have hTne : t.scope ≠ Scope.unscoped :=
                            resolve_named_not_unscoped s t.scope n hres
                          have hheadcm : ∀ tid2 t2, (∃ k2, (k2, tid2) ∈ rest) →
                              store tid2 = some t2 → t2.dependantCall = t.dependantCall →
                              resolve_scope s t2.scope = .ok (.named n) →
                              ∃ fc2, canonValF sem store fc2 tid2 = some w := by
                            intro tid2 t2 _ hst2 hcall2 hres2
                            have hne2 : t2.scope ≠ Scope.unscoped :=
                              resolve_named_not_unscoped s t2.scope n hres2
                            have htt : tid2 = tid := hdistinct tid2 tid t2 t hst2 hst hne2 hTne hcall2
                            subst htt
                            exact ⟨fc, hcanon⟩
                          have hhead : bucketVal s2 n t.dependantCall = some w :=
                            hframe n t.dependantCall w hbv1 hheadcm
                          refine ⟨hsc2, hok2, ?_, ?_⟩
                          · intro n2 p2 w0 hb0 hcm
                            by_cases hco : n2 = n ∧ p2 = t.dependantCall
                            · obtain ⟨hn2, hp2⟩ := hco
                              subst hn2
                              subst hp2
                              obtain ⟨fc0, h0⟩ := hcm tid t ⟨k, List.mem_cons_self _ _⟩ hst rfl hres
                              have hww : w0 = w :=
                                canonValF_unique sem store fc0 fc tid w0 w h0 hcanon
                              subst hww
                              exact hhead
                            · have hb1 : bucketVal s1 n2 p2 = some w0 := by
                                rw [hframe1 n2 p2 hco]
                                exact hb0
                              exact hframe n2 p2 w0 hb1 (fun tid2 t2 hmem => hcm tid2 t2
                                (hmem.imp fun k2 hk => List.mem_cons_of_mem _ hk))
                          · intro pr hpr t2 hst2 n2 hres2
                            cases List.mem_cons.mp hpr with
                            | inl he =>
                                subst he
                                have hst2b : store tid = some t2 := hst2
                                rw [hst] at hst2b
                                cases hst2b
                                rw [hres] at hres2
                                cases hres2
                                exact ⟨w, hhead, fc, hcanon⟩
                            | inr he => exact hwarm pr he t2 hst2 n2 hres2

/-- Per-node validity used for the C1 analysis: the node is on the heap, its
scope tag resolves, passes `_check_scope`, and the stack `wrap_call` binds to
exists.  Exactly the per-node conditions `_build_task` checks on the way to the
recursive loop. -/
def NodeOK (s : ContainerState) (i : Nat) : Prop :=
  ∃ dn, s.heap i = some dn ∧ ∃ sc bound,
    resolve_scope s dn.scope = .ok sc ∧ check_scope s sc = .ok () ∧
    boundScopeOf s sc = .ok bound ∧ (s.stacks_ bound).isSome = true

/-- The number of nodes of a finite universe `R` not yet in the seen set: the
termination measure of `_build_task` (the seen set only ever grows). -/
def unseenCount (R seen : List Nat) : Nat :=
  (R.filter (fun a => decide (¬ a ∈ seen))).length

theorem unseenCount_cons (a : Nat) (R seen : List Nat) :
    unseenCount (a :: R) seen = (if a ∈ seen then 0 else 1) + unseenCount R seen := by
  by_cases h : a ∈ seen
  · simp [unseenCount, List.filter_cons, h]
  · simp [unseenCount, List.filter_cons, h]
    omega

theorem unseenCount_mono (R s1 s2 : List Nat) (h : ∀ x ∈ s1, x ∈ s2) :
    unseenCount R s2 ≤ unseenCount R s1 := by
  induction R with
  | nil => exact Nat.le_refl _
  | cons a R ih =>
      rw [unseenCount_cons, unseenCount_cons]
      by_cases h2 : a ∈ s2
      · by_cases h1 : a ∈ s1
        · rw [if_pos h1, if_pos h2]
          omega
        · rw [if_neg h1, if_pos h2]
          omega
      · have h1 : a ∉ s1 := fun hx => h2 (h a hx)
        rw [if_neg h1, if_neg h2]
        omega

theorem unseenCount_cons_lt (R : List Nat) (d : Nat) (seen : List Nat)
    (hd : d ∈ R) (hds : d ∉ seen) :
    unseenCount R (d :: seen) < unseenCount R seen := by
  induction R with
  | nil => cases hd
  | cons a R ih =>
      rw [unseenCount_cons, unseenCount_cons]
      by_cases ha : a = d
      · subst ha
        rw [if_pos (List.mem_cons_self _ _), if_neg hds]
        have hmono := unseenCount_mono R seen (a :: seen) (fun x hx => List.mem_cons_of_mem _ hx)
        omega
      · have hdR : d ∈ R := by
          cases List.mem_cons.mp hd with
          | inl he => exact absurd he.symm ha
          | inr he => exact he
        have hsame : (a ∈ d :: seen) ↔ (a ∈ seen) := by
          constructor
          · intro hx
            cases List.mem_cons.mp hx with
            | inl he => exact absurd he ha
            | inr he => exact he
          · exact fun hx => List.mem_cons_of_mem _ hx
        by_cases hs : a ∈ seen
        · rw [if_pos hs, if_pos (hsame.mpr hs)]
          have := ih hdR
          omega
        · rw [if_neg hs, if_neg (fun hx => hs (hsame.mp hx))]
          have := ih hdR
          omega

theorem unseenCount_le_length (R seen : List Nat) : unseenCount R seen ≤ R.length :=
  List.length_filter_le _ _

/-- The cached-value search never fails when every active scope has a result
cache bucket. -/
theorem cacheSearch_total (s : ContainerState)
    (hbuckets : ∀ m ∈ s.scopes, (s.cached_values m).isSome = true) (p : Nat) :
    ∃ o, cacheSearch s p = .ok o := by
  rw [cacheSearch]
  have : ∀ l, (∀ m ∈ l, (s.cached_values m).isSome = true) →
      ∃ o, cacheSearchGo s p l = .ok o := by
    intro l
    induction l with
    | nil => exact fun _ => ⟨none, rfl⟩
    | cons m rest ih =>
        intro hall
        obtain ⟨bucket, hb⟩ := Option.isSome_iff_exists.mp (hall m (List.mem_cons_self _ _))
        obtain ⟨o, ho⟩ := ih (fun x hx => hall x (List.mem_cons_of_mem _ hx))
        rw [cacheSearchGo]
        simp only [hb]
        cases hbp : bucket p with
        | some v => exact ⟨some v, rfl⟩
        | none => simp only [hbp]; exact ⟨o, ho⟩
  exact this s.scopes.reverse (fun m hm => hbuckets m (List.mem_reverse.mp hm))

/-- In a reachable subgraph with no cycles and in-degree at most one, the
subtrees of two distinct children of one node are disjoint. -/
theorem sibling_disjoint (s : ContainerState) (root : Nat)
    (hnocyc : ∀ c, Relation.ReflTransGen (GEdge s.heap) root c →
      ¬ Relation.TransGen (GEdge s.heap) c c)
    (hindeg : ∀ a b x, Relation.ReflTransGen (GEdge s.heap) root a →
      Relation.ReflTransGen (GEdge s.heap) root b →
      GEdge s.heap a x → GEdge s.heap b x → a = b)
    (d : Nat) (hd : Relation.ReflTransGen (GEdge s.heap) root d)
    (e1 e2 : Nat) (h1 : GEdge s.heap d e1) (h2 : GEdge s.heap d e2) (hne : e1 ≠ e2) :
    ∀ x, Relation.ReflTransGen (GEdge s.heap) e1 x →
      Relation.ReflTransGen (GEdge s.heap) e2 x → False := by
  intro x hx1
  induction hx1 with
  | refl =>
      intro hx2
      rcases Relation.ReflTransGen.cases_tail hx2 with heq | ⟨c, hc, hce⟩
      · exact hne heq
      · have hcroot : Relation.ReflTransGen (GEdge s.heap) root c := (hd.tail h2).trans hc
        have hcd : c = d := hindeg c d e1 hcroot hd hce h1
        rw [hcd] at hc
        exact hnocyc d hd (Relation.TransGen.head' h2 hc)
  | @tail y z h3 hedge ih =>
      intro hx2
      rcases Relation.ReflTransGen.cases_tail hx2 with heq | ⟨c, hc, hcz⟩
      · rw [heq] at hedge
        have hyroot : Relation.ReflTransGen (GEdge s.heap) root y := (hd.tail h1).trans h3
        have hyd : y = d := hindeg y d e2 hyroot hd hedge h2
        rw [hyd] at h3
        exact hnocyc d hd (Relation.TransGen.head' h1 h3)
      · have hcroot : Relation.ReflTransGen (GEdge s.heap) root c := (hd.tail h2).trans hc
        have hyroot : Relation.ReflTransGen (GEdge s.heap) root y := (hd.tail h1).trans h3
        have hyc : y = c := hindeg y c z hyroot hcroot hedge hcz
        rw [hyc.symm] at hc
        exact ih hc

/-- A successful build's node was not on the seen set at entry. -/
theorem build_ok_unseen (s : ContainerState) :
    ∀ fuel d bs r, build_task s fuel d bs = .ok r → d ∉ bs.seen := by
  intro fuel d bs r h
  cases fuel with
  | zero => simp [build_task] at h
  | succ f =>
      rw [build_task] at h
      by_cases hs : d ∈ bs.seen
      · rw [if_pos hs] at h
        cases h
      · exact hs

/-- The build invariants survive the entry phase of `_build_task` (seen-set
extension plus the optional call-cache registration). -/
theorem BInv_after_entry (s : ContainerState) (bs bsM : BuildState) (d : Nat) (dn : DNode)
    (hdn : s.heap d = some dn)
    (hMseen : bsM.seen = d :: bs.seen) (hMtc : bsM.task_cache = bs.task_cache)
    (hMstore : bsM.store = bs.store) (hMnext : bsM.nextTask = bs.nextTask)
    (hMcc : ∀ q, bsM.call_cache q = bs.call_cache q ∨ (q = dn.call ∧ bsM.call_cache q = some d))
    (hBI : BInv s bs) : BInv s bsM := by
  constructor
  · intro pr hpr
    rw [hMtc] at hpr
    rw [hMseen]
    exact List.mem_cons_of_mem _ (hBI.tcSeen _ hpr)
  · intro q i hq
    rw [hMseen]
    cases hMcc q with
    | inl he =>
        rw [he] at hq
        exact List.mem_cons_of_mem _ (hBI.ccSeen _ _ hq)
    | inr he =>
        rw [he.2] at hq
        cases hq
        exact List.mem_cons_self _ _
  · intro q i hq
    cases hMcc q with
    | inl he =>
        rw [he] at hq
        exact hBI.ccCall _ _ hq
    | inr he =>
        rw [he.2] at hq
        cases hq
        exact ⟨dn, hdn, he.1.symm⟩
  · intro i
    rw [hMstore, hMnext]
    exact hBI.storeDom i
  · intro i t hst
    rw [hMstore] at hst
    exact hBI.storeDeps i t hst
  · intro i t hst
    rw [hMstore] at hst
    exact hBI.storeScope i t hst
  · intro i t hst hsc
    rw [hMstore] at hst
    obtain ⟨nd, dn2, w1, w2, w3⟩ := hBI.calls2 i t hst hsc
    exact ⟨nd, dn2, w1, w2, by rw [hMtc]; exact w3⟩
  · intro pr hpr
    rw [hMtc] at hpr
    rw [hMnext]
    exact hBI.tcStore _ hpr

/-- Extraction of the per-child builds from a successful sub-dependency loop:
each listed child was built successfully from an intermediate state satisfying
the invariants whose seen set extends the loop entry's. -/
theorem subtasks_children (s : ContainerState)
    (hinj : ∀ i j ni nj, s.heap i = some ni → s.heap j = some nj → ni.call = nj.call → i = j)
    (hbinds : ∀ q, s.binds q = none) (fuel : Nat) :
    ∀ l flag bs flagO subs bs3,
      build_subtasks (build_task s fuel) l flag bs = .ok (flagO, subs, bs3) → BInv s bs →
      ∀ pr ∈ l, ∃ bsE bE tidE bsE2, build_task s fuel pr.2 bsE = .ok (bE, tidE, bsE2) ∧
        BInv s bsE ∧ (∀ x ∈ bs.seen, x ∈ bsE.seen) := by
  intro l
  induction l with
  | nil =>
      intro flag bs flagO subs bs3 h hBI pr hpr
      cases hpr
  | cons hd rest ihl =>
      intro flag bs flagO subs bs3 h hBI pr hpr
      obtain ⟨nm, subId⟩ := hd
      rw [build_subtasks] at h
      cases hr : build_task s fuel subId bs with
      | error e => simp [hr] at h
      | ok trip =>
          obtain ⟨flagC, tidC, bsC⟩ := trip
          simp only [hr] at h
          obtain ⟨hBIC, hseenC, hdC, hntC, hstC, htcC, htidC, hlookC⟩ :=
            build_task_inv s hinj hbinds fuel subId bs flagC tidC bsC hr hBI
          have hBIC2 := BInv_insert_dup s bsC subId tidC hBIC hlookC
          cases hrest : build_subtasks (build_task s fuel) rest flagC
              { bsC with task_cache := alInsert subId tidC bsC.task_cache } with
          | error e => simp [hrest] at h
          | ok trip2 =>
              obtain ⟨fD, sD, bsD⟩ := trip2
              simp only [hrest] at h
              cases h
              cases List.mem_cons.mp hpr with
              | inl he =>
                  subst he
                  exact ⟨bs, flagC, tidC, bsC, hr, hBI, fun x hx => hx⟩
              | inr he =>
                  obtain ⟨bsE, bE, tidE, bsE2, hbe, hBIE, hmono⟩ :=
                    ihl flagC _ flagO sD bs3 hrest hBIC2 pr he
                  exact ⟨bsE, bE, tidE, bsE2, hbe, hBIE, fun x hx => hmono x (hseenC x hx)⟩

/-- A successful build certifies the traversed description is cycle-free:
no node strictly reachable from the built node is already seen or equal to it,
and no node reachable from it lies on a reference cycle. -/
theorem build_ok_no_cycle (s : ContainerState)
    (hinj : ∀ i j ni nj, s.heap i = some ni → s.heap j = some nj → ni.call = nj.call → i = j)
    (hbinds : ∀ q, s.binds q = none) :
    ∀ fuel d bs b tid bs2,
      build_task s fuel d bs = .ok (b, tid, bs2) → BInv s bs →
      (∀ c, Relation.TransGen (GEdge s.heap) d c → c ∉ bs.seen ∧ c ≠ d) ∧
      (∀ c, Relation.ReflTransGen (GEdge s.heap) d c →
        ¬ Relation.TransGen (GEdge s.heap) c c) := by
  intro fuel
  induction fuel with
  | zero =>
      intro d bs b tid bs2 h
      simp [build_task] at h
  | succ fuel ih =>
      intro d bs b tid bs2 h hBI
      obtain ⟨hseen, dn, scope0, bsM, allow, subs, bs3, hdn, hres, hMseen, hMtc, hMstore,
        hMnext, hMcc, hsub, htid, h2seen, h2cc, h2next, h2tc, task, h2store, htcall,
        htdeps, htscope, htscopeeq⟩ :=
        build_task_ok_inversion s hinj hbinds fuel d bs b tid bs2 hBI h
      have hBIM := BInv_after_entry s bs bsM d dn hdn hMseen hMtc hMstore hMnext hMcc hBI
      have hchild : ∀ nm e, (nm, e) ∈ dn.deps →
          ∃ bsE bE tidE bsE2, build_task s fuel e bsE = .ok (bE, tidE, bsE2) ∧
            BInv s bsE ∧ d ∈ bsE.seen ∧ (∀ x ∈ bs.seen, x ∈ bsE.seen) ∧ e ∉ bsE.seen := by
        intro nm e hmem
        obtain ⟨bsE, bE, tidE, bsE2, hbe, hBIE, hmono⟩ :=
          subtasks_children s hinj hbinds fuel dn.deps true bsM allow subs bs3 hsub hBIM
            (nm, e) hmem
        refine ⟨bsE, bE, tidE, bsE2, hbe, hBIE, ?_, ?_, ?_⟩
        · exact hmono d (by rw [hMseen]; exact List.mem_cons_self _ _)
        · exact fun x hx => hmono x (by rw [hMseen]; exact List.mem_cons_of_mem _ hx)
        · exact build_ok_unseen s fuel e bsE (bE, tidE, bsE2) hbe
      constructor
      · intro c hc
        obtain ⟨e, hde, hec⟩ := Relation.TransGen.head'_iff.mp hc
        obtain ⟨dn2, nm, hdn2, hmem⟩ := hde
        rw [hdn] at hdn2
        cases hdn2
        obtain ⟨bsE, bE, tidE, bsE2, hbe, hBIE, hdInE, hbsSub, heE⟩ := hchild nm e hmem
        rcases Relation.reflTransGen_iff_eq_or_transGen.mp hec with heq | htg
        · subst heq
          exact ⟨fun hx => heE (hbsSub c hx), fun hx => heE (by rw [hx]; exact hdInE)⟩
        · obtain ⟨hcE, hcne⟩ := (ih e bsE bE tidE bsE2 hbe hBIE).1 c htg
          exact ⟨fun hx => hcE (hbsSub c hx), fun hx => hcE (by rw [hx]; exact hdInE)⟩
      · intro c hdc hcc
        rcases Relation.reflTransGen_iff_eq_or_transGen.mp hdc with heq | htg
        · rw [heq] at hcc
          obtain ⟨e, hde, hed⟩ := Relation.TransGen.head'_iff.mp hcc
          obtain ⟨dn2, nm, hdn2, hmem⟩ := hde
          rw [hdn] at hdn2
          cases hdn2
          obtain ⟨bsE, bE, tidE, bsE2, hbe, hBIE, hdInE, hbsSub, heE⟩ := hchild nm e hmem
          rcases Relation.reflTransGen_iff_eq_or_transGen.mp hed with heq2 | htg2
          · rw [heq2] at hdInE
            exact heE hdInE
          · exact ((ih e bsE bE tidE bsE2 hbe hBIE).1 d htg2).1 hdInE
        · obtain ⟨e, hde, hec⟩ := Relation.TransGen.head'_iff.mp htg
          obtain ⟨dn2, nm, hdn2, hmem⟩ := hde
          rw [hdn] at hdn2
          cases hdn2
          obtain ⟨bsE, bE, tidE, bsE2, hbe, hBIE, hdInE, hbsSub, heE⟩ := hchild nm e hmem
          exact (ih e bsE bE tidE bsE2 hbe hBIE).2 c hec hcc

/-- Upper bound on seen-set growth: a successful build only ever adds nodes
reachable from the built node. -/
theorem build_seen_upper (s : ContainerState)
    (hinj : ∀ i j ni nj, s.heap i = some ni → s.heap j = some nj → ni.call = nj.call → i = j)
    (hbinds : ∀ q, s.binds q = none) :
    ∀ fuel d bs b tid bs2,
      build_task s fuel d bs = .ok (b, tid, bs2) → BInv s bs →
      ∀ x ∈ bs2.seen, x ∈ bs.seen ∨ Relation.ReflTransGen (GEdge s.heap) d x := by
  intro fuel
  induction fuel with
  | zero =>
      intro d bs b tid bs2 h
      simp [build_task] at h
  | succ fuel ih =>
      intro d bs b tid bs2 h hBI
      obtain ⟨hseen, dn, scope0, bsM, allow, subs, bs3, hdn, hres, hMseen, hMtc, hMstore,
        hMnext, hMcc, hsub, htid, h2seen, h2cc, h2next, h2tc, task, h2store, htcall,
        htdeps, htscope, htscopeeq⟩ :=
        build_task_ok_inversion s hinj hbinds fuel d bs b tid bs2 hBI h
      have hBIM := BInv_after_entry s bs bsM d dn hdn hMseen hMtc hMstore hMnext hMcc hBI
      have hlist : ∀ l flag bsA f2 sub2 bsB, (∀ pr ∈ l, GEdge s.heap d pr.2) →
          build_subtasks (build_task s fuel) l flag bsA = .ok (f2, sub2, bsB) → BInv s bsA →
          ∀ x ∈ bsB.seen, x ∈ bsA.seen ∨ Relation.ReflTransGen (GEdge s.heap) d x := by
        intro l
        induction l with
        | nil =>
            intro flag bsA f2 sub2 bsB hedges hh hBIA x hx
            cases hh
            exact Or.inl hx
        | cons pr rest ihl =>
            intro flag bsA f2 sub2 bsB hedges hh hBIA x hx
            obtain ⟨nm, subId⟩ := pr
            rw [build_subtasks] at hh
            cases hr : build_task s fuel subId bsA with
            | error e => simp [hr] at hh
            | ok trip =>
                obtain ⟨flagC, tidC, bsC⟩ := trip
                simp only [hr] at hh
                obtain ⟨hBIC, hseenC, hdC, hntC, hstC, htcC, htidC, hlookC⟩ :=
                  build_task_inv s hinj hbinds fuel subId bsA flagC tidC bsC hr hBIA
                have hBIC2 := BInv_insert_dup s bsC subId tidC hBIC hlookC
                cases hrest : build_subtasks (build_task s fuel) rest flagC
                    { bsC with task_cache := alInsert subId tidC bsC.task_cache } with
                | error e => simp [hrest] at hh
                | ok trip2 =>
                    obtain ⟨fD, sD, bsD⟩ := trip2
                    simp only [hrest] at hh
                    cases hh
                    cases ihl flagC _ f2 sD bsB
                        (fun pr2 hpr2 => hedges pr2 (List.mem_cons_of_mem _ hpr2))
                        hrest hBIC2 x hx with
                    | inr h2 => exact Or.inr h2
                    | inl hin =>
                        cases ih subId bsA flagC tidC bsC hr hBIA x hin with
                        | inl h0 => exact Or.inl h0
                        | inr hreach =>
                            exact Or.inr (Relation.ReflTransGen.head
                              (hedges (nm, subId) (List.mem_cons_self _ _)) hreach)
      intro x hx
      rw [h2seen] at hx
      cases hlist dn.deps true bsM allow subs bs3
          (fun pr hpr => ⟨dn, pr.1, hdn, hpr⟩) hsub hBIM x hx with
      | inr h2 => exact Or.inr h2
      | inl hin =>
          rw [hMseen] at hin
          cases List.mem_cons.mp hin with
          | inl he => exact Or.inr (by rw [he])
          | inr he => exact Or.inl he

/-- A successful build keeps the seen set duplicate-free. -/
theorem build_seen_nodup (s : ContainerState)
    (hinj : ∀ i j ni nj, s.heap i = some ni → s.heap j = some nj → ni.call = nj.call → i = j)
    (hbinds : ∀ q, s.binds q = none) :
    ∀ fuel d bs b tid bs2,
      build_task s fuel d bs = .ok (b, tid, bs2) → BInv s bs →
      bs.seen.Nodup → bs2.seen.Nodup := by
  intro fuel
  induction fuel with
  | zero =>
      intro d bs b tid bs2 h
      simp [build_task] at h
  | succ fuel ih =>
      intro d bs b tid bs2 h hBI hnd
      obtain ⟨hseen, dn, scope0, bsM, allow, subs, bs3, hdn, hres, hMseen, hMtc, hMstore,
        hMnext, hMcc, hsub, htid, h2seen, h2cc, h2next, h2tc, task, h2store, htcall,
        htdeps, htscope, htscopeeq⟩ :=
        build_task_ok_inversion s hinj hbinds fuel d bs b tid bs2 hBI h
      have hBIM := BInv_after_entry s bs bsM d dn hdn hMseen hMtc hMstore hMnext hMcc hBI
      have hndM : bsM.seen.Nodup := by
        rw [hMseen]
        exact List.nodup_cons.mpr ⟨hseen, hnd⟩
      have hlist : ∀ l flag bsA f2 sub2 bsB,
          build_subtasks (build_task s fuel) l flag bsA = .ok (f2, sub2, bsB) → BInv s bsA →
          bsA.seen.Nodup → bsB.seen.Nodup := by
        intro l
        induction l with
        | nil =>
            intro flag bsA f2 sub2 bsB hh hBIA hndA
            cases hh
            exact hndA
        | cons pr rest ihl =>
            intro flag bsA f2 sub2 bsB hh hBIA hndA
            obtain ⟨nm, subId⟩ := pr
            rw [build_subtasks] at hh
            cases hr : build_task s fuel subId bsA with
            | error e => simp [hr] at hh
            | ok trip =>
                obtain ⟨flagC, tidC, bsC⟩ := trip
                simp only [hr] at hh
                obtain ⟨hBIC, hseenC, hdC, hntC, hstC, htcC, htidC, hlookC⟩ :=
                  build_task_inv s hinj hbinds fuel subId bsA flagC tidC bsC hr hBIA
                have hBIC2 := BInv_insert_dup s bsC subId tidC hBIC hlookC
                cases hrest : build_subtasks (build_task s fuel) rest flagC
                    { bsC with task_cache := alInsert subId tidC bsC.task_cache } with
                | error e => simp [hrest] at hh
                | ok trip2 =>
                    obtain ⟨fD, sD, bsD⟩ := trip2
                    simp only [hrest] at hh
                    cases hh
                    exact ihl flagC _ f2 sD bsB hrest hBIC2
                      (ih subId bsA flagC tidC bsC hr hBIA hndA)
      rw [h2seen]
      exact hlist dn.deps true bsM allow subs bs3 hsub hBIM hndM

/-- Each successful build allocates exactly as many tasks as nodes it adds to
the seen set (stated as an inequality usable from any start state). -/
theorem build_nextTask_le (s : ContainerState)
    (hinj : ∀ i j ni nj, s.heap i = some ni → s.heap j = some nj → ni.call = nj.call → i = j)
    (hbinds : ∀ q, s.binds q = none) :
    ∀ fuel d bs b tid bs2,
      build_task s fuel d bs = .ok (b, tid, bs2) → BInv s bs →
      bs2.nextTask + bs.seen.length ≤ bs.nextTask + bs2.seen.length := by
  intro fuel
  induction fuel with
  | zero =>
      intro d bs b tid bs2 h
      simp [build_task] at h
  | succ fuel ih =>
      intro d bs b tid bs2 h hBI
      obtain ⟨hseen, dn, scope0, bsM, allow, subs, bs3, hdn, hres, hMseen, hMtc, hMstore,
        hMnext, hMcc, hsub, htid, h2seen, h2cc, h2next, h2tc, task, h2store, htcall,
        htdeps, htscope, htscopeeq⟩ :=
        build_task_ok_inversion s hinj hbinds fuel d bs b tid bs2 hBI h
      have hBIM := BInv_after_entry s bs bsM d dn hdn hMseen hMtc hMstore hMnext hMcc hBI
      have hlist : ∀ l flag bsA f2 sub2 bsB,
          build_subtasks (build_task s fuel) l flag bsA = .ok (f2, sub2, bsB) → BInv s bsA →
          bsB.nextTask + bsA.seen.length ≤ bsA.nextTask + bsB.seen.length := by
        intro l
        induction l with
        | nil =>
            intro flag bsA f2 sub2 bsB hh hBIA
            cases hh
            exact Nat.le_refl _
        | cons pr rest ihl =>
            intro flag bsA f2 sub2 bsB hh hBIA
            obtain ⟨nm, subId⟩ := pr
            rw [build_subtasks] at hh
            cases hr : build_task s fuel subId bsA with
            | error e => simp [hr] at hh
            | ok trip =>
                obtain ⟨flagC, tidC, bsC⟩ := trip
                simp only [hr] at hh
                obtain ⟨hBIC, hseenC, hdC, hntC, hstC, htcC, htidC, hlookC⟩ :=
                  build_task_inv s hinj hbinds fuel subId bsA flagC tidC bsC hr hBIA
                have hBIC2 := BInv_insert_dup s bsC subId tidC hBIC hlookC
                cases hrest : build_subtasks (build_task s fuel) rest flagC
                    { bsC with task_cache := alInsert subId tidC bsC.task_cache } with
                | error e => simp [hrest] at hh
                | ok trip2 =>
                    obtain ⟨fD, sD, bsD⟩ := trip2
                    simp only [hrest] at hh
                    cases hh
                    have h1 := ih subId bsA flagC tidC bsC hr hBIA
                    have h2 := ihl flagC _ f2 sD bsB hrest hBIC2
                    simp only [] at h2
                    omega
      have hlenM : bsM.seen.length = bs.seen.length + 1 := by
        rw [hMseen]
        rfl
      have h3 := hlist dn.deps true bsM allow subs bs3 hsub hBIM
      have h4 : bs2.seen.length = bs3.seen.length := by rw [h2seen]
      omega

theorem resolve_scope_not_circular (s : ContainerState) (x : Scope) :
    resolve_scope s x ≠ .error Err.circular := by
  cases x with
  | unscoped => simp [resolve_scope]
  | named n => simp [resolve_scope]
  | inherit =>
      rw [resolve_scope]
      cases s.scopes.getLast? <;> simp

theorem check_scope_not_circular (s : ContainerState) (x : Scope) :
    check_scope s x ≠ .error Err.circular := by
  cases x with
  | unscoped => simp [check_scope]
  | inherit => simp [check_scope]
  | named n =>
      rw [check_scope]
      by_cases h : (s.stacks_ n).isSome = true <;> simp [h]

theorem boundScopeOf_not_circular (s : ContainerState) (x : Scope) :
    boundScopeOf s x ≠ .error Err.circular := by
  cases x with
  | named n => simp [boundScopeOf]
  | inherit => simp [boundScopeOf]
  | unscoped =>
      rw [boundScopeOf]
      cases s.scopes.getLast? <;> simp

theorem cacheSearchGo_not_circular (s : ContainerState) (p : Nat) :
    ∀ l, cacheSearchGo s p l ≠ .error Err.circular := by
  intro l
  induction l with
  | nil => simp [cacheSearchGo]
  | cons m rest ih =>
      rw [cacheSearchGo]
      cases h : s.cached_values m with
      | none => simp
      | some bucket =>
          cases hb : bucket p with
          | some v => simp [hb]
          | none =>
              simp only [hb]
              exact ih

/-- The node's own task-cache entry is absent while the node is unseen. -/
theorem tc_miss (s : ContainerState) (bs : BuildState) (d : Nat)
    (hBI : BInv s bs) (hseen : d ∉ bs.seen) :
    alLookup d bs.task_cache = none := by
  cases htc : alLookup d bs.task_cache with
  | none => rfl
  | some tid0 => exact absurd (hBI.tcSeen _ (alLookup_mem _ _ _ htc)) hseen

/-- Over an injective heap the call-cache deduplication step never redirects an
unseen node and never fails: it passes the dependant through, registering at
most its own canonical entry. -/
theorem dedupe_call_progress (s : ContainerState)
    (hinj : ∀ i j ni nj, s.heap i = some ni → s.heap j = some nj → ni.call = nj.call → i = j)
    (bs : BuildState) (d : Nat) (dn : DNode) (sc : Scope)
    (hdn : s.heap d = some dn) (hBI : BInv s bs) (hseen : d ∉ bs.seen) :
    ∃ bsM, dedupe_call s sc d dn { bs with seen := d :: bs.seen } = .ok (d, dn, bsM) ∧
      bsM.seen = d :: bs.seen ∧ bsM.task_cache = bs.task_cache ∧
      bsM.store = bs.store ∧ bsM.nextTask = bs.nextTask ∧
      (∀ q, bsM.call_cache q = bs.call_cache q ∨ (q = dn.call ∧ bsM.call_cache q = some d)) := by
  have hccmiss : ({ bs with seen := d :: bs.seen } : BuildState).call_cache dn.call =
      bs.call_cache dn.call := rfl
  rw [dedupe_call]
  by_cases hsc : sc = Scope.unscoped
  · rw [if_pos hsc]
    exact ⟨_, rfl, rfl, rfl, rfl, rfl, fun q => Or.inl rfl⟩
  · rw [if_neg hsc]
    have hmiss : bs.call_cache dn.call = none := by
      cases hcc : bs.call_cache dn.call with
      | none => rfl
      | some cId =>
          obtain ⟨cn, hcn, hcncall⟩ := hBI.ccCall _ _ hcc
          have heq : cId = d := hinj cId d cn dn hcn hdn (by rw [hcncall])
          subst heq
          exact absurd (hBI.ccSeen _ _ hcc) hseen
    rw [hccmiss] at hmiss
    simp only [hmiss]
    refine ⟨_, rfl, rfl, rfl, rfl, rfl, ?_⟩
    intro q
    by_cases hq : q = dn.call
    · exact Or.inr ⟨hq, by simp [hq]⟩
    · exact Or.inl (by simp [hq])

/-- Totality of `_build_task` up to the circular check: over a valid reachable
subgraph with enough fuel, a build either returns a task or raises
CircularDependencyError — never any other error. -/
theorem build_progress (s : ContainerState) (root : Nat) (R : List Nat)
    (hinj : ∀ i j ni nj, s.heap i = some ni → s.heap j = some nj → ni.call = nj.call → i = j)
    (hbinds : ∀ q, s.binds q = none)
    (hR : ∀ i, Relation.ReflTransGen (GEdge s.heap) root i → i ∈ R)
    (hok : ∀ i, Relation.ReflTransGen (GEdge s.heap) root i → NodeOK s i)
    (hbuckets : ∀ m ∈ s.scopes, (s.cached_values m).isSome = true) :
    ∀ fuel d bs, Relation.ReflTransGen (GEdge s.heap) root d → BInv s bs →
      unseenCount R bs.seen < fuel →
      (∃ b tid bs2, build_task s fuel d bs = .ok (b, tid, bs2)) ∨
      build_task s fuel d bs = .error .circular := by
  intro fuel
  induction fuel with
  | zero =>
      intro d bs _ _ hlt
      omega
  | succ fuel ih =>
      intro d bs hreach hBI hfuel
      by_cases hseen : d ∈ bs.seen
      · right
        rw [build_task, if_pos hseen]
      obtain ⟨dn, hdn, sc, bound, hres, hchk, hbnd, hstk⟩ := hok d hreach
      rw [build_task, if_neg hseen]
      simp only [hdn, hres]
      rw [substitute_bind_none s d dn (hbinds dn.call)]
      simp only []
      obtain ⟨bsM, hded, hMseen, hMtc, hMstore, hMnext, hMcc⟩ :=
        dedupe_call_progress s hinj bs d dn sc hdn hBI hseen
      simp only [hded]
      have htcm : alLookup d bsM.task_cache = none := by
        rw [hMtc]
        exact tc_miss s bs d hBI hseen
      simp only [htcm, hres, hchk, hbnd]
      rw [if_pos hstk]
      have hBIM := BInv_after_entry s bs bsM d dn hdn hMseen hMtc hMstore hMnext hMcc hBI
      have hfuelM : unseenCount R bsM.seen < fuel := by
        rw [hMseen]
        have hlt := unseenCount_cons_lt R d bs.seen (hR d hreach) hseen
        omega
      have hlist : ∀ l flag bsA, (∀ pr ∈ l, GEdge s.heap d pr.2) → BInv s bsA →
          unseenCount R bsA.seen < fuel →
          (∃ f2 sub2 bsB, build_subtasks (build_task s fuel) l flag bsA = .ok (f2, sub2, bsB)) ∨
          build_subtasks (build_task s fuel) l flag bsA = .error .circular := by
        intro l
        induction l with
        | nil =>
            intro flag bsA _ _ _
            exact Or.inl ⟨flag, [], bsA, rfl⟩
        | cons pr rest ihl =>
            intro flag bsA hedges hBIA hfA
            obtain ⟨nm, subId⟩ := pr
            have hreachSub : Relation.ReflTransGen (GEdge s.heap) root subId :=
              hreach.tail (hedges (nm, subId) (List.mem_cons_self _ _))
            cases ih subId bsA hreachSub hBIA hfA with
            | inr hcir =>
                right
                rw [build_subtasks]
                simp only [hcir]
            | inl hokk =>
                obtain ⟨bC, tidC, bsC, hr⟩ := hokk
                obtain ⟨hBIC, hseenC, hdC, hntC, hstC, htcC, htidC, hlookC⟩ :=
                  build_task_inv s hinj hbinds fuel subId bsA bC tidC bsC hr hBIA
                have hBIC2 := BInv_insert_dup s bsC subId tidC hBIC hlookC
                have hfC : unseenCount R
                    ({ bsC with task_cache := alInsert subId tidC bsC.task_cache } :
                      BuildState).seen < fuel := by
                  show unseenCount R bsC.seen < fuel
                  have hmono := unseenCount_mono R bsA.seen bsC.seen hseenC
                  omega
                cases ihl bC _ (fun pr2 hpr2 => hedges pr2 (List.mem_cons_of_mem _ hpr2))
                    hBIC2 hfC with
                | inr hcir =>
                    right
                    rw [build_subtasks]
                    simp only [hr, hcir]
                | inl hokk2 =>
                    obtain ⟨f2, sub2, bsB, hrest⟩ := hokk2
                    left
                    refine ⟨f2, (nm, tidC) :: sub2, bsB, ?_⟩
                    rw [build_subtasks]
                    simp only [hr, hrest]
      cases hlist dn.deps true bsM (fun pr hpr => ⟨dn, pr.1, hdn, hpr⟩) hBIM hfuelM with
      | inr hcir =>
          right
          simp only [hcir]
      | inl hokk =>
          obtain ⟨allow2, subs2, bs3, hsub⟩ := hokk
          simp only [hsub]
          by_cases hcond : (allow2 = true ∧ sc ≠ Scope.unscoped)
          · rw [if_pos hcond]
            obtain ⟨o, ho⟩ := cacheSearch_total s hbuckets dn.call
            simp only [ho]
            cases o with
            | some v => exact Or.inl ⟨true, _, _, rfl⟩
            | none => exact Or.inl ⟨false, _, _, rfl⟩
          · rw [if_neg hcond]
            exact Or.inl ⟨false, _, _, rfl⟩

/-- Under the tree-shape conditions — no reachable cycles, in-degree at most
one, duplicate-free sub-dependency lists — a build whose subtree is disjoint
from the seen set never reports a circular dependency. -/
theorem build_no_circular (s : ContainerState) (root : Nat)
    (hinj : ∀ i j ni nj, s.heap i = some ni → s.heap j = some nj → ni.call = nj.call → i = j)
    (hbinds : ∀ q, s.binds q = none)
    (hnocyc : ∀ c, Relation.ReflTransGen (GEdge s.heap) root c →
      ¬ Relation.TransGen (GEdge s.heap) c c)
    (hindeg : ∀ a b x, Relation.ReflTransGen (GEdge s.heap) root a →
      Relation.ReflTransGen (GEdge s.heap) root b →
      GEdge s.heap a x → GEdge s.heap b x → a = b)
    (hnodup : ∀ i dni, Relation.ReflTransGen (GEdge s.heap) root i → s.heap i = some dni →
      (dni.deps.map Prod.snd).Nodup) :
    ∀ fuel d bs, Relation.ReflTransGen (GEdge s.heap) root d → BInv s bs →
      (∀ x, Relation.ReflTransGen (GEdge s.heap) d x → x ∉ bs.seen) →
      build_task s fuel d bs ≠ .error Err.circular := by
  intro fuel
  induction fuel with
  | zero =>
      intro d bs _ _ _
      simp [build_task]
  | succ fuel ih =>
      intro d bs hreach hBI hinv
      have hseen : d ∉ bs.seen := hinv d Relation.ReflTransGen.refl
      rw [build_task, if_neg hseen]
      cases hdn : s.heap d with
      | none => simp
      | some dn =>
      simp only [hdn]
      cases hres : resolve_scope s dn.scope with
      | error e =>
          simp only [hres]
          intro hc
          cases hc
          exact resolve_scope_not_circular s dn.scope hres
      | ok sc =>
      simp only [hres]
      rw [substitute_bind_none s d dn (hbinds dn.call)]
      simp only []
      obtain ⟨bsM, hded, hMseen, hMtc, hMstore, hMnext, hMcc⟩ :=
        dedupe_call_progress s hinj bs d dn sc hdn hBI hseen
      simp only [hded]
      have htcm : alLookup d bsM.task_cache = none := by
        rw [hMtc]
        exact tc_miss s bs d hBI hseen
      simp only [htcm, hres]
      cases hchk : check_scope s sc with
      | error e =>
          simp only [hchk]
          intro hc
          cases hc
          exact check_scope_not_circular s sc hchk
      | ok u =>
      simp only [hchk]
      cases hbnd : boundScopeOf s sc with
      | error e =>
          simp only [hbnd]
          intro hc
          cases hc
          exact boundScopeOf_not_circular s sc hbnd
      | ok bound =>
      simp only [hbnd]
      by_cases hstk : (s.stacks_ bound).isSome = true
      swap
      · rw [if_neg hstk]
        simp
      rw [if_pos hstk]
      have hBIM := BInv_after_entry s bs bsM d dn hdn hMseen hMtc hMstore hMnext hMcc hBI
      have hndeps : (dn.deps.map Prod.snd).Nodup := hnodup d dn hreach hdn
      have hinvM : ∀ pr, pr ∈ dn.deps → ∀ x, Relation.ReflTransGen (GEdge s.heap) pr.2 x →
          x ∉ bsM.seen := by
        intro pr hpr x hx
        rw [hMseen]
        intro hmem
        have hedge : GEdge s.heap d pr.2 := ⟨dn, pr.1, hdn, hpr⟩
        cases List.mem_cons.mp hmem with
        | inl he =>
            rw [he] at hx
            exact hnocyc d hreach (Relation.TransGen.head' hedge hx)
        | inr he =>
            exact hinv x (Relation.ReflTransGen.head hedge hx) he
      have hlist : ∀ l flag bsA, (∀ pr ∈ l, pr ∈ dn.deps) →
          (l.map Prod.snd).Nodup →
          (∀ pr ∈ l, ∀ x, Relation.ReflTransGen (GEdge s.heap) pr.2 x → x ∉ bsA.seen) →
          BInv s bsA →
          build_subtasks (build_task s fuel) l flag bsA ≠ .error Err.circular := by
        intro l
        induction l with
        | nil =>
            intro flag bsA _ _ _ _
            simp [build_subtasks]
        | cons pr rest ihl =>
            intro flag bsA hin hnd hinvA hBIA
            obtain ⟨nm, subId⟩ := pr
            have hedgeH : GEdge s.heap d subId :=
              ⟨dn, nm, hdn, hin (nm, subId) (List.mem_cons_self _ _)⟩
            have hreachSub : Relation.ReflTransGen (GEdge s.heap) root subId :=
              hreach.tail hedgeH
            rw [build_subtasks]
            cases hr : build_task s fuel subId bsA with
            | error e =>
                simp only [hr]
                intro hc
                cases hc
                exact ih subId bsA hreachSub hBIA
                  (fun x hx => hinvA (nm, subId) (List.mem_cons_self _ _) x hx) hr
            | ok trip =>
                obtain ⟨flagC, tidC, bsC⟩ := trip
                simp only [hr]
                obtain ⟨hBIC, hseenC, hdC, hntC, hstC, htcC, htidC, hlookC⟩ :=
                  build_task_inv s hinj hbinds fuel subId bsA flagC tidC bsC hr hBIA
                have hBIC2 := BInv_insert_dup s bsC subId tidC hBIC hlookC
                have hndrest : (rest.map Prod.snd).Nodup := (List.nodup_cons.mp hnd).2
                have hnotin : subId ∉ rest.map Prod.snd := (List.nodup_cons.mp hnd).1
                have hinvC : ∀ pr2 ∈ rest, ∀ x, Relation.ReflTransGen (GEdge s.heap) pr2.2 x →
                    x ∉ ({ bsC with task_cache := alInsert subId tidC bsC.task_cache } :
                      BuildState).seen := by
                  intro pr2 hpr2 x hx hmem
                  have hmem2 : x ∈ bsC.seen := hmem
                  cases build_seen_upper s hinj hbinds fuel subId bsA flagC tidC bsC hr hBIA
                      x hmem2 with
                  | inl h0 => exact hinvA pr2 (List.mem_cons_of_mem _ hpr2) x hx h0
                  | inr hreach2 =>
                      have hedge2 : GEdge s.heap d pr2.2 :=
                        ⟨dn, pr2.1, hdn, hin pr2 (List.mem_cons_of_mem _ hpr2)⟩
                      have hne : subId ≠ pr2.2 := by
                        intro heq
                        refine hnotin ?_
                        rw [heq]
                        exact List.mem_map_of_mem Prod.snd hpr2
                      exact sibling_disjoint s root hnocyc hindeg d hreach subId pr2.2
                        hedgeH hedge2 hne x hreach2 hx
                cases hrest : build_subtasks (build_task s fuel) rest flagC
                    { bsC with task_cache := alInsert subId tidC bsC.task_cache } with
                | error e =>
                    simp only [hrest]
                    intro hc
                    cases hc
                    exact ihl flagC _ (fun pr2 hpr2 => hin pr2 (List.mem_cons_of_mem _ hpr2))
                      hndrest hinvC hBIC2 hrest
                | ok trip2 =>
                    obtain ⟨f2, sub2, bsB⟩ := trip2
                    simp only [hrest]
                    simp
      cases hsub : build_subtasks (build_task s fuel) dn.deps true bsM with
      | error e =>
          simp only [hsub]
          intro hc
          cases hc
          exact hlist dn.deps true bsM (fun pr hpr => hpr) hndeps
            (fun pr hpr x hx => hinvM pr hpr x hx) hBIM hsub
      | ok trip =>
          obtain ⟨allow2, subs2, bs3⟩ := trip
          simp only [hsub]
          by_cases hcond : (allow2 = true ∧ sc ≠ Scope.unscoped)
          · rw [if_pos hcond]
            cases hcs : cacheSearch s dn.call with
            | error e =>
                simp only [hcs]
                intro hc
                cases hc
                rw [cacheSearch] at hcs
                exact cacheSearchGo_not_circular s dn.call _ hcs
            | ok vo =>
                cases vo with
                | some v => simp [hcs]
                | none => simp [hcs]
          · rw [if_neg hcond]
            simp

/-- The execute cache-warming loop succeeds whenever every listed task is
stored under an id below the fuel, stored task scopes are valid, and every
scope with a cleanup stack has a result-cache bucket. -/
theorem write_loop_ok (sem : Nat → List (String × Nat) → Nat)
    (store : Nat → Option Task) (s : ContainerState) (fuel : Nat)
    (hdeps : ∀ i t, store i = some t →
      ∀ pr ∈ t.dependencies, pr.2 < i ∧ (store pr.2).isSome = true) :
    ∀ l s0 rs,
      (∀ pr ∈ l, pr.2 < fuel ∧ (store pr.2).isSome = true) →
      (∀ i t, store i = some t → taskScopeOK s t.scope) →
      (∀ m, (s.stacks_ m).isSome = true → (s0.cached_values m).isSome = true) →
      ∃ s2 rs2, write_loop sem store fuel l s0 rs = .ok (s2, rs2) := by
  intro l
  induction l with
  | nil =>
      intro s0 rs _ _ _
      exact ⟨s0, rs, rfl⟩
  | cons pr rest ihl =>
      intro s0 rs hl hscope hb
      obtain ⟨nm, tid⟩ := pr
      obtain ⟨hlt, hsome⟩ := hl (nm, tid) (List.mem_cons_self _ _)
      obtain ⟨t, hst⟩ := Option.isSome_iff_exists.mp hsome
      rw [write_loop]
      simp only [hst]
      have hts : taskScopeOK s t.scope := hscope tid t hst
      cases htsc : t.scope with
      | inherit =>
          rw [htsc] at hts
          exact False.elim hts
      | unscoped =>
          have hres : resolve_scope s0 Scope.unscoped = .ok Scope.unscoped := rfl
          simp only [htsc, hres]
          exact ihl s0 rs (fun pr2 hpr2 => hl pr2 (List.mem_cons_of_mem _ hpr2)) hscope hb
      | named n =>
          rw [htsc] at hts
          have hres : resolve_scope s0 (Scope.named n) = .ok (Scope.named n) := rfl
          simp only [htsc, hres]
          obtain ⟨v, rs1, htr⟩ := task_result_ok sem store hdeps fuel tid rs hlt hsome
          simp only [htr]
          obtain ⟨bucket, hbk⟩ := Option.isSome_iff_exists.mp (hb n hts)
          have hcw : cache_write s0 n t.dependantCall v =
              .ok { s0 with cached_values := fun x =>
                if x = n then some (fun q => if q = t.dependantCall then some v else bucket q)
                else s0.cached_values x } := by
            rw [cache_write]
            simp only [hbk]
          simp only [hcw]
          exact ihl _ rs1 (fun pr2 hpr2 => hl pr2 (List.mem_cons_of_mem _ hpr2)) hscope
            (by
              intro m hm
              show (if m = n then some (fun q => if q = t.dependantCall then some v else bucket q)
                    else s0.cached_values m).isSome = true
              by_cases hmn : m = n
              · rw [if_pos hmn]
                rfl
              · rw [if_neg hmn]
                exact hb m hm)

/-! ### Claim theorems -/

/-- C7: `resolve_scope` maps the Unscoped tag to Unscoped, a concrete scope id
to itself, and the Inherit tag to the innermost currently active scope; when
the tag is Inherit and no scope is active it fails with the unknown-scope
error. -/
theorem c7_resolve_scope (s : ContainerState) (n innermost : String) :
    resolve_scope s Scope.unscoped = .ok Scope.unscoped ∧
    resolve_scope s (Scope.named n) = .ok (Scope.named n) ∧
    (s.scopes.getLast? = some innermost →
      resolve_scope s Scope.inherit = .ok (Scope.named innermost)) ∧
    (s.scopes = [] → resolve_scope s Scope.inherit = .error Err.unknownScope) := by
  refine ⟨rfl, rfl, ?_, ?_⟩
  · intro h; simp [resolve_scope, h]
  · intro h; simp [resolve_scope, h]

/-- Witness for C7 at a concrete state with active scope list ["app"]. -/
theorem c7_resolve_scope_witness :
    resolve_scope ⟨fun _ => none, fun _ => none, fun _ => none, ["app"], fun _ => none, 0⟩
      Scope.inherit = .ok (Scope.named "app") :=
  (c7_resolve_scope ⟨fun _ => none, fun _ => none, fun _ => none, ["app"], fun _ => none, 0⟩
    "x" "app").2.2.1 rfl

/-- C4: Task.result is single-flight.  Once one call has computed and stored
the value, any number of subsequent callers all receive exactly that stored
value and leave the run state — including the provider-invocation log —
untouched, so the adapted call is never re-invoked. -/
theorem c4_task_result_single_flight (sem : Nat → List (String × Nat) → Nat)
    (store : Nat → Option Task) (fuel : Nat) (tid : Nat) (rs : RunState)
    (v : Nat) (rs1 : RunState)
    (h : task_result sem store fuel tid rs = .ok (v, rs1)) :
    ∀ n fuel2, task_result_many sem store (fuel2+1) tid n rs1 = .ok (List.replicate n v, rs1) := by
  intro n fuel2
  have hmemo : rs1.memo tid = some v := task_result_memo sem store fuel tid rs v rs1 h
  induction n with
  | zero => simp [task_result_many]
  | succ k ih =>
      have hstep : task_result sem store (fuel2+1) tid rs1 = .ok (v, rs1) := by
        rw [task_result, hmemo]
      rw [task_result_many]
      simp only [hstep, ih, List.replicate]

/-- Witness for C4: one task with no dependencies, computed once, then read
back three times with no further provider invocation. -/
theorem c4_task_result_single_flight_witness :
    task_result_many (fun p _ => p + 1) (fun i => if i = 0 then some ⟨5, Scope.unscoped, .adapted 5 "s", []⟩ else none)
      3 0 3 { memo := fun i => if i = 0 then some 6 else none, log := [5] } =
      .ok ([6, 6, 6], { memo := fun i => if i = 0 then some 6 else none, log := [5] }) :=
  c4_task_result_single_flight (fun p _ => p + 1)
    (fun i => if i = 0 then some ⟨5, Scope.unscoped, .adapted 5 "s", []⟩ else none)
    1 0 emptyRunState 6 { memo := fun i => if i = 0 then some 6 else none, log := [5] }
    (by simp [task_result, emptyRunState, run_subtasks]) 3 2

/-- Unfolding of enter_scope on a non-duplicate scope, phrased through the
body's result: the post-exit state pops the stack entry and bucket, restores
the binds object and pops the scope, and the teardowns run in reverse
registration order. -/
theorem enter_scope_eq {A : Type} (scope : String)
    (body : ContainerState → ContainerState × Except Err A) (s : ContainerState)
    (hfree : s.stacks_ scope = none) (s2 : ContainerState) (out : Except Err A)
    (hbody : body (enter_scope_state scope s) = (s2, out)) :
    enter_scope scope body s = Except.ok
      (({ s2 with
          stacks_ := fun x => if x = scope then none else s2.stacks_ x
          binds := s.binds
          cached_values := fun x => if x = scope then none else s2.cached_values x
          scopes := s2.scopes.dropLast }, out),
        ((s2.stacks_ scope).getD []).reverse) := by
  rw [enter_scope]
  simp only [hfree, Option.isSome_none, Bool.false_eq_true, if_false, hbody]

/-- C5: when a scope exits, the teardown actions registered on its cleanup
stack run in exact reverse order of registration — each therefore exactly once
— and this holds on the normal path and on the failure path, in particular when
a later guard's acquisition fails (the already-registered teardowns still run,
the failed guard registers nothing). -/
theorem c5_teardown_reverse_order (s : ContainerState) (sc : String) (gs : List GuardSpec)
    (hfree : s.stacks_ sc = none) :
    ∃ r, enter_scope sc (fun st => acquire_all sc gs st) s = Except.ok r ∧
      r.2 = ((okGuards gs).map (fun g => g.teardownId)).reverse ∧
      ((∀ g ∈ gs, g.enterOk = true) → ∃ vs, (r.1).2 = Except.ok vs) := by
  have hentered : (enter_scope_state sc s).stacks_ sc = some [] := by
    simp [enter_scope_state]
  obtain ⟨h1, h2⟩ := acquire_all_stacks sc gs (enter_scope_state sc s) [] hentered
  cases hacq : acquire_all sc gs (enter_scope_state sc s) with
  | mk s2 out =>
      have key := enter_scope_eq sc (fun st => acquire_all sc gs st) s hfree s2 out (by simpa using hacq)
      have h1b : s2.stacks_ sc = some ((okGuards gs).map (fun g => g.teardownId)) := by
        rw [hacq] at h1
        simpa using h1
      refine ⟨_, key, ?_, ?_⟩
      · simp [h1b]
      · intro hall
        obtain ⟨vs, hvs⟩ := h2 hall
        rw [hacq] at hvs
        exact ⟨vs, hvs⟩

/-- Witness for C5: scope "w" with guards (ok, teardown 1), (ok, teardown 2),
(failing, teardown 3): the teardowns that ran are [2, 1] — the successful
prefix in reverse — despite the third guard's acquisition failing. -/
theorem c5_teardown_reverse_order_witness :
    ∃ r, enter_scope "w" (fun st => acquire_all "w"
          [⟨true, 1, 10⟩, ⟨true, 2, 20⟩, ⟨false, 3, 30⟩] st)
        ⟨fun _ => none, fun _ => none, fun _ => none, [], fun _ => none, 0⟩ =
        Except.ok r ∧ r.2 = [2, 1] := by
  obtain ⟨r, h, h2, _⟩ := c5_teardown_reverse_order
    ⟨fun _ => none, fun _ => none, fun _ => none, [], fun _ => none, 0⟩ "w"
    [⟨true, 1, 10⟩, ⟨true, 2, 20⟩, ⟨false, 3, 30⟩] rfl
  exact ⟨r, h, by rw [h2]; rfl⟩

/-- C6: entering an already-active scope fails with DuplicateScopeError; and
whatever the body did and however it exited (success or failure outcome),
exiting the scope pops its id from the active stack, discards its result-cache
bucket, removes its cleanup stack, and reverts the binding table to the object
snapshotted at entry, so bindings installed inside the scope do not survive. -/
theorem c6_scope_exit_restores {A : Type} (s : ContainerState) (sc : String)
    (body : ContainerState → ContainerState × Except Err A) :
    ((s.stacks_ sc).isSome → enter_scope sc body s = .error Err.duplicateScope) ∧
    (s.stacks_ sc = none →
      ∀ s2 out, body (enter_scope_state sc s) = (s2, out) →
        s2.scopes = (enter_scope_state sc s).scopes →
        ∃ s3 td, enter_scope sc body s = .ok ((s3, out), td) ∧
          s3.binds = s.binds ∧ s3.scopes = s.scopes ∧
          s3.stacks_ sc = none ∧ s3.cached_values sc = none) := by
  constructor
  · intro h
    rw [enter_scope]
    simp [h]
  · intro hfree s2 out hbody hscopes
    rw [enter_scope]
    simp only [hfree, Option.isSome_none, Bool.false_eq_true, if_false, hbody]
    refine ⟨_, _, rfl, rfl, ?_, by simp, by simp⟩
    rw [hscopes]
    simp [enter_scope_state]

/-- Witness for C6: a body that installs a binding and succeeds; after exit
the binding table is the pre-entry one and the scope is fully gone. -/
theorem c6_scope_exit_restores_witness :
    ∃ s3 td, enter_scope "w"
        (fun st => (Container.bind st 4 9, Except.ok 0))
        ⟨fun _ => none, fun _ => none, fun _ => none, [], fun _ => none, 0⟩ =
        .ok ((s3, Except.ok 0), td) ∧
      s3.binds = (fun _ => none) ∧ s3.scopes = ([] : List String) ∧
      s3.stacks_ "w" = none ∧ s3.cached_values "w" = none := by
  obtain ⟨s3, td, h⟩ := (c6_scope_exit_restores
    ⟨fun _ => none, fun _ => none, fun _ => none, [], fun _ => none, 0⟩ "w"
    (fun st => (Container.bind st 4 9, Except.ok 0))).2 rfl _ _ rfl (by rfl)
  exact ⟨s3, td, h⟩

/-- C8: `bind(target, source)` installs an override mapping `target` to a
description whose provider is `source` (so substitution during resolution uses
it), and purges `target` from every active scope's result cache while leaving
every other provider's cached entries, and the set of buckets, unchanged. -/
theorem c8_bind_installs_and_purges (s : ContainerState) (target source : Nat) :
    (∃ nId node, (Container.bind s target source).binds target = some nId ∧
      (Container.bind s target source).heap nId = some node ∧
      node.call = source ∧ node.deps = [] ∧
      (∀ depId dn, dn.call = target →
        substitute_bind (Container.bind s target source) depId dn = .ok (nId, node))) ∧
    (∀ sc bucket, (Container.bind s target source).cached_values sc = some bucket →
      bucket target = none) ∧
    (∀ sc bucket, s.cached_values sc = some bucket →
      ∃ bucket2, (Container.bind s target source).cached_values sc = some bucket2 ∧
        ∀ q, q ≠ target → bucket2 q = bucket q) ∧
    (∀ sc, ((Container.bind s target source).cached_values sc).isSome =
      (s.cached_values sc).isSome) := by
  refine ⟨⟨s.nextNode, { call := source, scope := bindDefaultScope, deps := [] },
      by simp [Container.bind], by simp [Container.bind], rfl, rfl, ?_⟩, ?_, ?_, ?_⟩
  · intro depId dn hdn
    rw [substitute_bind]
    simp [Container.bind, hdn]
  · intro sc bucket hb
    simp only [Container.bind, Option.map] at hb
    cases hcv : s.cached_values sc with
    | none => rw [hcv] at hb; cases hb
    | some b0 => rw [hcv] at hb; cases hb; simp
  · intro sc bucket hb
    refine ⟨fun q => if q = target then none else bucket q, ?_, ?_⟩
    · simp [Container.bind, hb]
    · intro q hq; simp [hq]
  · intro sc
    cases hcv : s.cached_values sc <;> simp [Container.bind, hcv]

/-- Witness for C8: concrete state with a cached value for provider 4 and one
for provider 7 in scope "s"; binding 4 purges 4 and keeps 7. -/
theorem c8_bind_installs_and_purges_witness :
    (∀ sc bucket, (Container.bind
        ⟨fun _ => none,
         fun x => if x = "s" then some (fun q => if q = 4 then some 40 else if q = 7 then some 70 else none) else none,
         fun _ => none, ["s"], fun _ => none, 0⟩ 4 9).cached_values sc = some bucket →
      bucket 4 = none) := by
  exact (c8_bind_installs_and_purges
    ⟨fun _ => none,
     fun x => if x = "s" then some (fun q => if q = 4 then some 40 else if q = 7 then some 70 else none) else none,
     fun _ => none, ["s"], fun _ => none, 0⟩ 4 9).2.1

/-- C10: building a Task for a dependant whose resolved scope is Unscoped
always binds the adapted call to the innermost active scope's cleanup stack;
with an empty scope stack the `scopes[-1]` indexing fails with the unguarded
IndexError — not the UnknownScopeError — because check_scope is skipped for
Unscoped. -/
theorem c10_unscoped_requires_active_scope (s : ContainerState) (root : Nat) (p : Nat)
    (deps : List (String × Nat)) (fuel : Nat)
    (hheap : s.heap root = some { call := p, scope := Scope.unscoped, deps := deps })
    (hbind : s.binds p = none) :
    (s.scopes = [] →
      build_task s (fuel+1) root emptyBuildState = .error Err.indexError ∧
      build_task s (fuel+1) root emptyBuildState ≠ .error Err.unknownScope) ∧
    (∀ inner stk, deps = [] → s.scopes.getLast? = some inner → s.stacks_ inner = some stk →
      ∃ bs, build_task s (fuel+1) root emptyBuildState = .ok (false, 0, bs) ∧
        bs.store 0 = some { dependantCall := p, scope := Scope.unscoped,
                            call := TaskCall.adapted p inner, dependencies := [] }) := by
  constructor
  · intro hsc
    have hlast : s.scopes.getLast? = none := by rw [hsc]; rfl
    have heq : build_task s (fuel+1) root emptyBuildState = .error Err.indexError := by
      simp [build_task, emptyBuildState, hheap, hbind, hlast, resolve_scope, check_scope,
        substitute_bind, dedupe_call, boundScopeOf, alLookup]
    exact ⟨heq, by rw [heq]; simp⟩
  · intro inner stk hdeps hlast hstk
    subst hdeps
    refine ⟨_, build_single_unscoped s root p inner stk fuel hheap hbind hlast hstk, ?_⟩
    simp

/-- Witness for C10 at a concrete empty-scope-stack state. -/
theorem c10_unscoped_requires_active_scope_witness :
    build_task ⟨fun _ => none, fun _ => none, fun _ => none, [],
        fun i => if i = 0 then some ⟨7, Scope.unscoped, []⟩ else none, 1⟩
      3 0 emptyBuildState = .error Err.indexError :=
  ((c10_unscoped_requires_active_scope
    ⟨fun _ => none, fun _ => none, fun _ => none, [],
      fun i => if i = 0 then some ⟨7, Scope.unscoped, []⟩ else none, 1⟩
    0 7 [] 2 rfl rfl).1 rfl).1

/-- C3: an Unscoped provider never touches any result cache: whatever the
caches contain, executing its description returns a fresh invocation of the
provider (nothing is read), leaves the container state — in particular every
result cache — unchanged (nothing is written), and each of two sequential
execute calls therefore invokes the provider once. -/
theorem c3_unscoped_never_cached (sem : Nat → List (String × Nat) → Nat)
    (s : ContainerState) (root : Nat) (p : Nat) (sc0 : String)
    (stk : List Nat) (fuel : Nat)
    (hheap : s.heap root = some { call := p, scope := Scope.unscoped, deps := [] })
    (hbind : s.binds p = none)
    (hlast : s.scopes.getLast? = some sc0)
    (hstk : s.stacks_ sc0 = some stk) :
    execute sem (fuel+2) s root = .ok (sem p [], s, [p]) ∧
    exec2logs sem (fuel+2) s root = .ok ([p], [p]) := by
  have hstep : (fuel+2) = (fuel+1)+1 := rfl
  have hb := build_single_unscoped s root p sc0 stk (fuel+1) hheap hbind hlast hstk
  have hexec : execute sem (fuel+2) s root = .ok (sem p [], s, [p]) := by
    rw [hstep, execute, hb]
    simp [task_result, run_subtasks, write_loop, resolve_scope, emptyRunState]
  refine ⟨hexec, ?_⟩
  rw [exec2logs]
  simp [hexec]

/-- Witness for C3: a concrete Unscoped provider, executed twice, with a cache
that even contains a stale value for it — the cached value is ignored and the
provider runs once per call. -/
theorem c3_unscoped_never_cached_witness :
    execute (fun p _ => p + 10) 3
      ⟨fun _ => none, fun x => if x = "s" then some (fun q => if q = 7 then some 55 else none) else none,
       fun x => if x = "s" then some [] else none, ["s"],
       fun i => if i = 0 then some ⟨7, Scope.unscoped, []⟩ else none, 1⟩ 0 =
      .ok (17,
        ⟨fun _ => none, fun x => if x = "s" then some (fun q => if q = 7 then some 55 else none) else none,
         fun x => if x = "s" then some [] else none, ["s"],
         fun i => if i = 0 then some ⟨7, Scope.unscoped, []⟩ else none, 1⟩, [7]) :=
  (c3_unscoped_never_cached (fun p _ => p + 10)
    ⟨fun _ => none, fun x => if x = "s" then some (fun q => if q = 7 then some 55 else none) else none,
     fun x => if x = "s" then some [] else none, ["s"],
     fun i => if i = 0 then some ⟨7, Scope.unscoped, []⟩ else none, 1⟩
    0 7 "s" [] 1 rfl rfl rfl rfl).1

/-- Container state for the C2 counterexample: scope "s" active with an empty
result cache; the description is node 0 (provider 0, scope "s") depending on
node 1 (provider 1, Unscoped). -/
def c2state : ContainerState :=
  { binds := fun _ => none
    cached_values := fun x => if x = "s" then some (fun _ => none) else none
    stacks_ := fun x => if x = "s" then some [] else none
    scopes := ["s"]
    heap := fun i =>
      if i = 0 then some { call := 0, scope := Scope.named "s", deps := [("d", 1)] }
      else if i = 1 then some { call := 1, scope := Scope.unscoped, deps := [] }
      else none
    nextNode := 2 }

/-- C2 counterexample: provider 0 resolves to the active scope "s" (not
Unscoped), yet each of two sequential execute calls in that scope invokes it —
both rounds log [1, 0] — because its Unscoped sub-dependency forces
allow_cache to False, so the value the first round cached is never consulted.
This refutes the claim that every non-Unscoped provider is invoked exactly
once in total across two execute calls in the same active scope. -/
theorem c2_counterexample :
    exec2logs (fun p _ => p + 10) 9 c2state 0 = .ok ([1, 0], [1, 0]) := rfl

/-- C2 (amended): for every provider whose resolved scope is a concrete active
scope and which has no sub-dependencies, two sequential execute calls while the
scope is active (starting with no cached entry for that provider) invoke the
underlying provider exactly once in total: the first round logs exactly one
invocation and caches the value, the second round logs none and observes the
same value from the scope's result cache. -/
theorem c2_scoped_invoked_once (sem : Nat → List (String × Nat) → Nat)
    (s : ContainerState) (root : Nat) (p : Nat)
    (n : String) (stk : List Nat) (fuel : Nat)
    (hheap : s.heap root = some { call := p, scope := Scope.named n, deps := [] })
    (hbind : s.binds p = none)
    (hstk : s.stacks_ n = some stk)
    (hmem : n ∈ s.scopes)
    (hwf : ∀ m ∈ s.scopes, ∃ b, s.cached_values m = some b ∧ b p = none) :
    ∃ s1 s2, execute sem (fuel+2) s root = .ok (sem p [], s1, [p]) ∧
      execute sem (fuel+2) s1 root = .ok (sem p [], s2, []) := by
  obtain ⟨b0, hb0, hb0p⟩ := hwf n hmem
  have hsearch : cacheSearch s p = Except.ok none := by
    rw [cacheSearch]
    exact cacheSearchGo_none s p _ (fun m hm => hwf m (List.mem_reverse.mp hm))
  obtain ⟨s1, hex1, hheap1, hbind1, hstk1, hscopes1, hother, b1, hb1, hb1p, hb1o⟩ :=
    exec_single_named_miss sem s root p n stk fuel b0 hheap hbind hstk hsearch hb0
  have hsearch1 : cacheSearch s1 p = Except.ok (some (sem p [])) := by
    rw [cacheSearch, hscopes1]
    apply cacheSearchGo_hit s1 p _ n (sem p []) (List.mem_reverse.mpr hmem)
    intro m hm
    by_cases hmn : m = n
    · subst hmn
      exact ⟨b1, hb1, by simp [hb1p]⟩
    · obtain ⟨b, hb, hbp⟩ := hwf m (List.mem_reverse.mp hm)
      exact ⟨b, by rw [hother m hmn]; exact hb, by simp [hmn, hbp]⟩
  have hex2 := exec_single_named_hit sem s1 root p n stk fuel (sem p [])
      (by rw [hheap1]; exact hheap) (by rw [hbind1]; exact hbind)
      (by rw [hstk1]; exact hstk) hsearch1
  exact ⟨s1, s1, hex1, hex2⟩

/-- Container state for the C2 witness: scope "s" active, empty cache, one
description node 0 (provider 4, scope "s", no sub-dependencies). -/
def c2single : ContainerState :=
  { binds := fun _ => none
    cached_values := fun x => if x = "s" then some (fun _ => none) else none
    stacks_ := fun x => if x = "s" then some [] else none
    scopes := ["s"]
    heap := fun i => if i = 0 then some { call := 4, scope := Scope.named "s", deps := [] } else none
    nextNode := 1 }

/-- Witness for the amended C2 at a concrete scoped dependency-free provider. -/
theorem c2_scoped_invoked_once_witness :
    ∃ s1 s2, execute (fun p _ => p + 10) 3 c2single 0 = .ok (14, s1, [4]) ∧
      execute (fun p _ => p + 10) 3 s1 0 = .ok (14, s2, []) := by
  have hwf : ∀ m ∈ c2single.scopes, ∃ b, c2single.cached_values m = some b ∧ b 4 = none := by
    intro m hm
    simp only [c2single, List.mem_singleton] at hm
    subst hm
    refine ⟨fun _ => none, ?_, rfl⟩
    simp [c2single]
  obtain ⟨s1, s2, h1, h2⟩ := c2_scoped_invoked_once (fun p _ => p + 10) c2single 0 4 "s" [] 1
    rfl rfl rfl (by simp [c2single]) hwf
  exact ⟨s1, s2, h1, h2⟩

/-- Container state for the C1 counterexample: scope "s" active; the
description graph is an acyclic diamond in which node 3 is one description
object shared by the two sibling branches 1 and 2. -/
def c1diamond : ContainerState :=
  { binds := fun _ => none
    cached_values := fun x => if x = "s" then some (fun _ => none) else none
    stacks_ := fun x => if x = "s" then some [] else none
    scopes := ["s"]
    heap := fun i =>
      if i = 0 then some { call := 0, scope := Scope.named "s", deps := [("a", 1), ("b", 2)] }
      else if i = 1 then some { call := 1, scope := Scope.named "s", deps := [("d", 3)] }
      else if i = 2 then some { call := 2, scope := Scope.named "s", deps := [("d", 3)] }
      else if i = 3 then some { call := 3, scope := Scope.named "s", deps := [] }
      else none
    nextNode := 4 }

/-- C1 counterexample: the diamond description above is acyclic, yet building
it raises CircularDependencyError — the seen set is populated once per whole
build and never pruned when a subtree completes, so the description node 3
shared by the two sibling branches is mistaken for a cycle when the second
branch reaches it. -/
theorem c1_counterexample :
    build_task c1diamond 9 0 emptyBuildState = .error Err.circular := rfl

/-- C9: after a successful `execute`, every Task built during that round
whose resolved scope caches values (is not Unscoped) — intermediate
dependencies as well as the root — has its result written into that scope's
result cache keyed by its provider reference: the cached value is exactly what
a fresh `Task.result` call on that task returns.  Stated over heaps with
injective provider references and an empty binding table (the setting where
distinct description nodes describe distinct providers, so no two tasks
compete for one cache key). -/
theorem c9_execute_warms_cache (sem : Nat → List (String × Nat) → Nat)
    (fuel : Nat) (s : ContainerState) (depId : Nat)
    (hinj : ∀ i j ni nj, s.heap i = some ni → s.heap j = some nj → ni.call = nj.call → i = j)
    (hbinds : ∀ q, s.binds q = none)
    (b : Bool) (rootTid : Nat) (bs : BuildState)
    (hb : build_task s fuel depId emptyBuildState = .ok (b, rootTid, bs))
    (v : Nat) (s2 : ContainerState) (log : List Nat)
    (hx : execute sem fuel s depId = .ok (v, s2, log)) :
    ∀ pr ∈ bs.task_cache, ∀ t, bs.store pr.2 = some t → ∀ n,
      resolve_scope s t.scope = .ok (.named n) →
      ∃ w, bucketVal s2 n t.dependantCall = some w ∧
        ∃ rs2, task_result sem bs.store (pr.2 + 1) pr.2 emptyRunState = .ok (w, rs2) := by
  obtain ⟨hBI, -, -, -, -, -, -, -⟩ :=
    build_task_inv s hinj hbinds fuel depId emptyBuildState b rootTid bs hb (BInv_empty s)
  have hdeps : ∀ i t, bs.store i = some t →
      ∀ pr ∈ t.dependencies, pr.2 < i ∧ (bs.store pr.2).isSome = true := by
    intro i t hst pr hpr
    refine ⟨hBI.storeDeps i t hst pr hpr, ?_⟩
    have hi : i < bs.nextTask := (hBI.storeDom i).mp (by rw [hst]; rfl)
    have hlt : pr.2 < bs.nextTask := Nat.lt_trans (hBI.storeDeps i t hst pr hpr) hi
    exact (hBI.storeDom pr.2).mpr hlt
  have hdis := store_calls_injective s hinj bs hBI
  rw [execute] at hx
  simp only [hb] at hx
  cases htr : task_result sem bs.store fuel rootTid emptyRunState with
  | error e => simp only [htr] at hx; cases hx
  | ok q =>
  obtain ⟨result, rs⟩ := q
  simp only [htr] at hx
  obtain ⟨-, hokrs⟩ := task_result_canon sem bs.store fuel rootTid emptyRunState result rs htr
    (memoOK_empty sem bs.store)
  cases hroot : bs.store rootTid with
  | none => simp only [hroot] at hx; cases hx
  | some rootTask =>
  simp only [hroot] at hx
  cases hrsc : resolve_scope s rootTask.scope with
  | error e => simp only [hrsc] at hx; cases hx
  | ok sc =>
  simp only [hrsc] at hx
  suffices hfin : ∀ s1 : ContainerState, s1.scopes = s.scopes →
      ∀ sw rsw, write_loop sem bs.store fuel bs.task_cache s1 rs = .ok (sw, rsw) →
      ∀ pr ∈ bs.task_cache, ∀ t, bs.store pr.2 = some t → ∀ n,
        resolve_scope s t.scope = .ok (.named n) →
        ∃ w, bucketVal sw n t.dependantCall = some w ∧
          ∃ rs2, task_result sem bs.store (pr.2 + 1) pr.2 emptyRunState = .ok (w, rs2) by
    cases sc with
    | inherit => simp only [] at hx; cases hx
    | unscoped =>
        simp only [] at hx
        cases hwl : write_loop sem bs.store fuel bs.task_cache s rs with
        | error e => simp only [hwl] at hx; cases hx
        | ok q2 =>
            obtain ⟨sw, rsw⟩ := q2
            simp only [hwl] at hx
            cases hx
            exact hfin s rfl s2 rsw hwl
    | named nr =>
        simp only [] at hx
        cases hcw : cache_write s nr rootTask.dependantCall result with
        | error e => simp only [hcw] at hx; cases hx
        | ok s1 =>
            simp only [hcw] at hx
            cases hwl : write_loop sem bs.store fuel bs.task_cache s1 rs with
            | error e => simp only [hwl] at hx; cases hx
            | ok q2 =>
                obtain ⟨sw, rsw⟩ := q2
                simp only [hwl] at hx
                cases hx
                exact hfin s1 (cache_write_spec s nr rootTask.dependantCall v s1 hcw).1
                  s2 rsw hwl
  intro s1 hs1 sw rsw hwl pr hpr t hst n hres
  obtain ⟨-, -, -, hwarm⟩ :=
    write_loop_post sem bs.store s hdis bs.task_cache fuel s1 rs sw rsw hs1 hwl hokrs
  obtain ⟨w, hbv, fc, hcanon⟩ := hwarm pr hpr t hst n hres
  have hsome : (bs.store pr.2).isSome = true := by rw [hst]; rfl
  obtain ⟨w2, rs3, hfresh⟩ := task_result_ok sem bs.store hdeps (pr.2 + 1) pr.2 emptyRunState
    (Nat.lt_succ_self _) hsome
  obtain ⟨⟨fc2, hcanon2⟩, -⟩ := task_result_canon sem bs.store (pr.2 + 1) pr.2 emptyRunState
    w2 rs3 hfresh (memoOK_empty sem bs.store)
  have hww : w2 = w := canonValF_unique sem bs.store fc2 fc pr.2 w2 w hcanon2 hcanon
  subst hww
  exact ⟨w2, hbv, rs3, hfresh⟩

/-- Container state for the C9 witness: scope "s" active with an empty result
cache bucket; the description is node 0 (provider 5, scope "s") depending on
node 1 (provider 6, scope "s"). -/
def c9state : ContainerState :=
  { binds := fun _ => none
    cached_values := fun x => if x = "s" then some (fun _ => none) else none
    stacks_ := fun x => if x = "s" then some [] else none
    scopes := ["s"]
    heap := fun i =>
      if i = 0 then some { call := 5, scope := Scope.named "s", deps := [("d", 1)] }
      else if i = 1 then some { call := 6, scope := Scope.named "s", deps := [] }
      else none
    nextNode := 2 }

/-- The C9 witness heap references its two providers injectively. -/
theorem c9heap_inj : ∀ i j ni nj, c9state.heap i = some ni → c9state.heap j = some nj →
    ni.call = nj.call → i = j := by
  have hshape : ∀ i ni, c9state.heap i = some ni →
      (i = 0 ∧ ni.call = 5) ∨ (i = 1 ∧ ni.call = 6) := by
    intro i ni hi
    by_cases h0 : i = 0
    · subst h0
      have he : c9state.heap 0 = some { call := 5, scope := Scope.named "s", deps := [("d", 1)] } := rfl
      rw [he] at hi
      cases hi
      exact Or.inl ⟨rfl, rfl⟩
    · by_cases h1 : i = 1
      · subst h1
        have he : c9state.heap 1 = some { call := 6, scope := Scope.named "s", deps := [] } := rfl
        rw [he] at hi
        cases hi
        exact Or.inr ⟨rfl, rfl⟩
      · have he : c9state.heap i = none := by
          simp only [c9state]
          rw [if_neg h0, if_neg h1]
        rw [he] at hi
        cases hi
  intro i j ni nj hi hj hc
  cases hshape i ni hi with
  | inl h =>
      cases hshape j nj hj with
      | inl h2 => rw [h.1, h2.1]
      | inr h2 =>
          rw [h.2, h2.2] at hc
          exact absurd hc (by decide)
  | inr h =>
      cases hshape j nj hj with
      | inl h2 =>
          rw [h.2, h2.2] at hc
          exact absurd hc (by decide)
      | inr h2 => rw [h.1, h2.1]

/-- Witness for C9: two description nodes in active scope "s" (root provider 5
depending on provider 6); after the execute round every built task's result is
cached in scope "s" under its provider. -/
theorem c9_execute_warms_cache_witness :
    ∃ b rootTid bs v s2 log,
      build_task c9state 9 0 emptyBuildState = .ok (b, rootTid, bs) ∧
      execute (fun p vs => p + vs.length) 9 c9state 0 = .ok (v, s2, log) ∧
      ∀ pr ∈ bs.task_cache, ∀ t, bs.store pr.2 = some t → ∀ n,
        resolve_scope c9state t.scope = .ok (.named n) →
        ∃ w, bucketVal s2 n t.dependantCall = some w ∧
          ∃ rs2, task_result (fun p vs => p + vs.length) bs.store (pr.2 + 1) pr.2 emptyRunState =
            .ok (w, rs2) := by
  refine ⟨_, _, _, _, _, _, rfl, rfl, ?_⟩
  exact c9_execute_warms_cache (fun p vs => p + vs.length) 9 c9state 0 c9heap_inj
    (fun q => rfl) _ _ _ rfl _ _ _ rfl

/-- C1 (amended): building raises CircularDependencyError exactly when the
build traversal revisits a description node, not when the description graph
has a cycle: (a) for tree-shaped descriptions — no reachable reference cycle,
every reachable node referenced by at most one reachable node, duplicate-free
sub-dependency lists — `execute` returns a value (in particular no
CircularDependencyError); (b) whenever the root reaches a reference cycle,
building raises CircularDependencyError.  Stated over well-formed container
states, heaps with injective provider references, an empty binding table, and
fuel exceeding the size of a finite universe `R` of the reachable nodes.  (The
diamond counterexample shows the original "acyclic, including shared diamond
nodes, implies no CircularDependencyError" half is false.) -/
theorem c1_tree_succeeds_cycle_raises (sem : Nat → List (String × Nat) → Nat)
    (s : ContainerState) (root : Nat) (R : List Nat) (fuel : Nat)
    (hinj : ∀ i j ni nj, s.heap i = some ni → s.heap j = some nj → ni.call = nj.call → i = j)
    (hbinds : ∀ q, s.binds q = none)
    (hR : ∀ i, Relation.ReflTransGen (GEdge s.heap) root i → i ∈ R)
    (hok : ∀ i, Relation.ReflTransGen (GEdge s.heap) root i → NodeOK s i)
    (hbuckets : ∀ m ∈ s.scopes, (s.cached_values m).isSome = true)
    (hstacks : ∀ n, (s.stacks_ n).isSome = true → (s.cached_values n).isSome = true)
    (hfuel : R.length < fuel) :
    ((∀ c, Relation.ReflTransGen (GEdge s.heap) root c →
        ¬ Relation.TransGen (GEdge s.heap) c c) →
     (∀ a b x, Relation.ReflTransGen (GEdge s.heap) root a →
        Relation.ReflTransGen (GEdge s.heap) root b →
        GEdge s.heap a x → GEdge s.heap b x → a = b) →
     (∀ i dni, Relation.ReflTransGen (GEdge s.heap) root i → s.heap i = some dni →
        (dni.deps.map Prod.snd).Nodup) →
     ∃ v s2 log, execute sem fuel s root = .ok (v, s2, log)) ∧
    ((∃ c, Relation.ReflTransGen (GEdge s.heap) root c ∧
        Relation.TransGen (GEdge s.heap) c c) →
     build_task s fuel root emptyBuildState = .error Err.circular) := by
  have hfuel0 : unseenCount R emptyBuildState.seen < fuel := by
    have := unseenCount_le_length R emptyBuildState.seen
    omega
  have hprog := build_progress s root R hinj hbinds hR hok hbuckets fuel root emptyBuildState
    Relation.ReflTransGen.refl (BInv_empty s) hfuel0
  constructor
  · intro hnocyc hindeg hnodup
    cases hprog with
    | inr hcir =>
        exact absurd hcir (build_no_circular s root hinj hbinds hnocyc hindeg hnodup fuel root
          emptyBuildState Relation.ReflTransGen.refl (BInv_empty s)
          (fun x _ => by simp [emptyBuildState]))
    | inl hokk =>
        obtain ⟨b, rootTid, bs, hb⟩ := hokk
        obtain ⟨hBI, -, -, -, -, -, hrtid, -⟩ :=
          build_task_inv s hinj hbinds fuel root emptyBuildState b rootTid bs hb (BInv_empty s)
        have hnodupS : bs.seen.Nodup := build_seen_nodup s hinj hbinds fuel root emptyBuildState
          b rootTid bs hb (BInv_empty s) (by simp [emptyBuildState])
        have hsubR : ∀ x ∈ bs.seen, x ∈ R := by
          intro x hx
          cases build_seen_upper s hinj hbinds fuel root emptyBuildState b rootTid bs hb
              (BInv_empty s) x hx with
          | inl h0 => simp [emptyBuildState] at h0
          | inr h2 => exact hR x h2
        have hlen : bs.seen.length ≤ R.length := by
          calc bs.seen.length = bs.seen.toFinset.card :=
                (List.toFinset_card_of_nodup hnodupS).symm
            _ ≤ R.toFinset.card := Finset.card_le_card (fun x hx => List.mem_toFinset.mpr
                (hsubR x (List.mem_toFinset.mp hx)))
            _ ≤ R.length := List.toFinset_card_le R
        have hnt := build_nextTask_le s hinj hbinds fuel root emptyBuildState b rootTid bs hb
          (BInv_empty s)
        have hntR : bs.nextTask ≤ R.length := by
          have h1 : emptyBuildState.seen.length = 0 := rfl
          have h2 : emptyBuildState.nextTask = 0 := rfl
          omega
        have hdeps : ∀ i t, bs.store i = some t →
            ∀ pr ∈ t.dependencies, pr.2 < i ∧ (bs.store pr.2).isSome = true := by
          intro i t hst pr hpr
          refine ⟨hBI.storeDeps i t hst pr hpr, ?_⟩
          have hi : i < bs.nextTask := (hBI.storeDom i).mp (by rw [hst]; rfl)
          have hlt : pr.2 < bs.nextTask := Nat.lt_trans (hBI.storeDeps i t hst pr hpr) hi
          exact (hBI.storeDom pr.2).mpr hlt
        have hrootSome : (bs.store rootTid).isSome = true := (hBI.storeDom rootTid).mpr hrtid
        obtain ⟨result, rs, htr⟩ := task_result_ok sem bs.store hdeps fuel rootTid emptyRunState
          (by omega) hrootSome
        obtain ⟨rootTask, hroot⟩ := Option.isSome_iff_exists.mp hrootSome
        have hts : taskScopeOK s rootTask.scope := hBI.storeScope rootTid rootTask hroot
        have hlconds : ∀ pr ∈ bs.task_cache, pr.2 < fuel ∧ (bs.store pr.2).isSome = true := by
          intro pr hpr
          have h1 := hBI.tcStore pr hpr
          exact ⟨by omega, (hBI.storeDom pr.2).mpr h1⟩
        refine ⟨result, ?_⟩
        rw [execute]
        simp only [hb, htr, hroot]
        cases htsc : rootTask.scope with
        | inherit =>
            rw [htsc] at hts
            exact False.elim hts
        | unscoped =>
            have hres : resolve_scope s Scope.unscoped = .ok Scope.unscoped := rfl
            simp only [htsc, hres]
            obtain ⟨s2, rs2, hwl⟩ := write_loop_ok sem bs.store s fuel hdeps bs.task_cache s rs
              hlconds (fun i t hst => hBI.storeScope i t hst) (fun m hm => hstacks m hm)
            simp only [hwl]
            exact ⟨s2, rs2.log, rfl⟩
        | named n =>
            rw [htsc] at hts
            have hres : resolve_scope s (Scope.named n) = .ok (Scope.named n) := rfl
            simp only [htsc, hres]
            obtain ⟨bucket, hbk⟩ := Option.isSome_iff_exists.mp (hstacks n hts)
            have hcw : cache_write s n rootTask.dependantCall result =
                .ok { s with cached_values := fun x =>
                  if x = n then some (fun q =>
                    if q = rootTask.dependantCall then some result else bucket q)
                  else s.cached_values x } := by
              rw [cache_write]
              simp only [hbk]
            simp only [hcw]
            obtain ⟨s2, rs2, hwl⟩ := write_loop_ok sem bs.store s fuel hdeps bs.task_cache
              { s with cached_values := fun x =>
                  if x = n then some (fun q =>
                    if q = rootTask.dependantCall then some result else bucket q)
                  else s.cached_values x } rs
              hlconds (fun i t hst => hBI.storeScope i t hst)
              (by
                intro m hm
                show (if m = n then some (fun q =>
                      if q = rootTask.dependantCall then some result else bucket q)
                    else s.cached_values m).isSome = true
                by_cases hmn : m = n
                · rw [if_pos hmn]
                  rfl
                · rw [if_neg hmn]
                  exact hstacks m hm)
            simp only [hwl]
            exact ⟨s2, rs2.log, rfl⟩
  · intro hcyc
    obtain ⟨c, hrc, hcc⟩ := hcyc
    cases hprog with
    | inr hcir => exact hcir
    | inl hokk =>
        obtain ⟨b, rootTid, bs, hb⟩ := hokk
        exact absurd hcc ((build_ok_no_cycle s hinj hbinds fuel root emptyBuildState b rootTid bs
          hb (BInv_empty s)).2 c hrc)

/-- Container state for the C1 witness: scope "s" active with an empty result
cache bucket; the description is the two-node tree 0 → 1 (providers 3 and 4,
both in scope "s"). -/
def c1chain : ContainerState :=
  { binds := fun _ => none
    cached_values := fun x => if x = "s" then some (fun _ => none) else none
    stacks_ := fun x => if x = "s" then some [] else none
    scopes := ["s"]
    heap := fun i =>
      if i = 0 then some { call := 3, scope := Scope.named "s", deps := [("d", 1)] }
      else if i = 1 then some { call := 4, scope := Scope.named "s", deps := [] }
      else none
    nextNode := 2 }

/-- The single description-graph edge of the C1 witness. -/
theorem c1chain_edge : ∀ a b, GEdge c1chain.heap a b → a = 0 ∧ b = 1 := by
  intro a b hedge
  obtain ⟨dn, nm, hdn, hmem⟩ := hedge
  by_cases h0 : a = 0
  · subst h0
    have he : c1chain.heap 0 =
        some { call := 3, scope := Scope.named "s", deps := [("d", 1)] } := rfl
    rw [he] at hdn
    cases hdn
    simp at hmem
    exact ⟨rfl, hmem.2⟩
  · by_cases h1 : a = 1
    · subst h1
      have he : c1chain.heap 1 =
          some { call := 4, scope := Scope.named "s", deps := [] } := rfl
      rw [he] at hdn
      cases hdn
      simp at hmem
    · have he : c1chain.heap a = none := by
        simp only [c1chain]
        rw [if_neg h0, if_neg h1]
      rw [he] at hdn
      cases hdn

/-- The C1 witness reachable set is exactly its two nodes. -/
theorem c1chain_reach : ∀ i, Relation.ReflTransGen (GEdge c1chain.heap) 0 i →
    i = 0 ∨ i = 1 := by
  intro i h
  induction h with
  | refl => exact Or.inl rfl
  | @tail y z h1 hedge ih => exact Or.inr (c1chain_edge y z hedge).2

/-- The C1 witness heap references its two providers injectively. -/
theorem c1chain_inj : ∀ i j ni nj, c1chain.heap i = some ni → c1chain.heap j = some nj →
    ni.call = nj.call → i = j := by
  have hshape : ∀ i ni, c1chain.heap i = some ni →
      (i = 0 ∧ ni.call = 3) ∨ (i = 1 ∧ ni.call = 4) := by
    intro i ni hi
    by_cases h0 : i = 0
    · subst h0
      have he : c1chain.heap 0 =
          some { call := 3, scope := Scope.named "s", deps := [("d", 1)] } := rfl
      rw [he] at hi
      cases hi
      exact Or.inl ⟨rfl, rfl⟩
    · by_cases h1 : i = 1
      · subst h1
        have he : c1chain.heap 1 =
            some { call := 4, scope := Scope.named "s", deps := [] } := rfl
        rw [he] at hi
        cases hi
        exact Or.inr ⟨rfl, rfl⟩
      · have he : c1chain.heap i = none := by
          simp only [c1chain]
          rw [if_neg h0, if_neg h1]
        rw [he] at hi
        cases hi
  intro i j ni nj hi hj hc
  cases hshape i ni hi with
  | inl h =>
      cases hshape j nj hj with
      | inl h2 => rw [h.1, h2.1]
      | inr h2 =>
          rw [h.2, h2.2] at hc
          exact absurd hc (by decide)
  | inr h =>
      cases hshape j nj hj with
      | inl h2 =>
          rw [h.2, h2.2] at hc
          exact absurd hc (by decide)
      | inr h2 => rw [h.1, h2.1]

/-- Witness for the amended C1: the two-node chain description in active scope
"s" is tree-shaped, so execute succeeds on it. -/
theorem c1_tree_succeeds_cycle_raises_witness :
    ∃ v s2 log, execute (fun p vs => p + vs.length) 9 c1chain 0 = .ok (v, s2, log) := by
  have hR : ∀ i, Relation.ReflTransGen (GEdge c1chain.heap) 0 i → i ∈ [0, 1] := by
    intro i h
    cases c1chain_reach i h with
    | inl he =>
        rw [he]
        exact List.mem_cons_self _ _
    | inr he =>
        rw [he]
        exact List.mem_cons_of_mem _ (List.mem_cons_self _ _)
  have hok : ∀ i, Relation.ReflTransGen (GEdge c1chain.heap) 0 i → NodeOK c1chain i := by
    intro i h
    cases c1chain_reach i h with
    | inl he =>
        rw [he]
        exact ⟨{ call := 3, scope := Scope.named "s", deps := [("d", 1)] }, rfl,
          Scope.named "s", "s", rfl, rfl, rfl, rfl⟩
    | inr he =>
        rw [he]
        exact ⟨{ call := 4, scope := Scope.named "s", deps := [] }, rfl,
          Scope.named "s", "s", rfl, rfl, rfl, rfl⟩
  have hbuckets : ∀ m ∈ c1chain.scopes, (c1chain.cached_values m).isSome = true := by
    intro m hm
    have hm2 : m = "s" := by simpa [c1chain] using hm
    rw [hm2]
    rfl
  have hstacks : ∀ n, (c1chain.stacks_ n).isSome = true →
      (c1chain.cached_values n).isSome = true := by
    intro n hn
    by_cases h : n = "s"
    · rw [h]
      rfl
    · exact absurd hn (by simp [c1chain, h])
  have hnocyc : ∀ c, Relation.ReflTransGen (GEdge c1chain.heap) 0 c →
      ¬ Relation.TransGen (GEdge c1chain.heap) c c := by
    intro c _ hcc
    obtain ⟨e, hce, hec⟩ := Relation.TransGen.head'_iff.mp hcc
    obtain ⟨hc0, he1⟩ := c1chain_edge c e hce
    rw [he1, hc0] at hec
    rcases Relation.ReflTransGen.cases_tail hec with heq | ⟨c2, hc2, hc2e⟩
    · exact absurd heq (by decide)
    · exact absurd (c1chain_edge c2 0 hc2e).2 (by decide)
  have hindeg : ∀ a b x, Relation.ReflTransGen (GEdge c1chain.heap) 0 a →
      Relation.ReflTransGen (GEdge c1chain.heap) 0 b →
      GEdge c1chain.heap a x → GEdge c1chain.heap b x → a = b := by
    intro a b x _ _ ha hb
    rw [(c1chain_edge a x ha).1, (c1chain_edge b x hb).1]
  have hnodup : ∀ i dni, Relation.ReflTransGen (GEdge c1chain.heap) 0 i →
      c1chain.heap i = some dni → (dni.deps.map Prod.snd).Nodup := by
    intro i dni h hdn
    cases c1chain_reach i h with
    | inl he =>
        rw [he] at hdn
        have he2 : c1chain.heap 0 =
            some { call := 3, scope := Scope.named "s", deps := [("d", 1)] } := rfl
        rw [he2] at hdn
        cases hdn
        simp
    | inr he =>
        rw [he] at hdn
        have he2 : c1chain.heap 1 =
            some { call := 4, scope := Scope.named "s", deps := [] } := rfl
        rw [he2] at hdn
        cases hdn
        simp
  exact (c1_tree_succeeds_cycle_raises (fun p vs => p + vs.length) c1chain 0 [0, 1] 9
    c1chain_inj (fun q => rfl) hR hok hbuckets hstacks (by decide)).1 hnocyc hindeg hnodup

end Anydep
